import Mathlib

/-
Verification of the SideSales dashboard ledger aggregation
(src/operations/models.py and src/operations/views.py, DashboardView.get_context_data).

Monetary values are Python `Decimal` objects.  The decimal module's default
context carries 28 significant digits and rounds every arithmetic result with
ROUND_HALF_EVEN, so we model a decimal value by its exact rational value and
wrap each arithmetic operation of the source in `ctxRound`, the correctly
rounded projection to 28 significant digits.  Equality of Python decimals is
numeric equality, so value semantics is faithful.
-/

namespace SideSales

abbrev Dec := ℚ

/-! The arithmetic of `ℚ` in the library is not kernel-reducible, so the exact
rational operations are re-implemented through `mkRat`; the bridge lemmas
right below each definition prove them equal to the library operations. -/

/-- Exact rational addition through `mkRat`. -/
def qAdd (x y : ℚ) : ℚ := mkRat (x.num * y.den + y.num * x.den) (x.den * y.den)

/-- Exact rational subtraction through `mkRat`. -/
def qSub (x y : ℚ) : ℚ := mkRat (x.num * y.den - y.num * x.den) (x.den * y.den)

/-- Exact rational multiplication through `mkRat`. -/
def qMul (x y : ℚ) : ℚ := mkRat (x.num * y.num) (x.den * y.den)

/-- Exact rational inverse through `mkRat` (0 for 0). -/
def qInv (y : ℚ) : ℚ :=
  if y.num < 0 then mkRat (-(y.den : ℤ)) y.num.natAbs else mkRat (y.den : ℤ) y.num.natAbs

/-- Exact rational division through `mkRat` (0 for division by 0). -/
def qDiv (x y : ℚ) : ℚ := qMul x (qInv y)

theorem qAdd_eq (x y : ℚ) : qAdd x y = x + y := by
  rw [qAdd, Rat.mkRat_eq_div]
  push_cast
  conv_rhs => rw [← Rat.num_div_den x, ← Rat.num_div_den y]
  have hx : ((x.den : ℚ)) ≠ 0 := by exact_mod_cast x.den_nz
  have hy : ((y.den : ℚ)) ≠ 0 := by exact_mod_cast y.den_nz
  field_simp

theorem qSub_eq (x y : ℚ) : qSub x y = x - y := by
  rw [qSub, Rat.mkRat_eq_div]
  push_cast
  conv_rhs => rw [← Rat.num_div_den x, ← Rat.num_div_den y]
  have hx : ((x.den : ℚ)) ≠ 0 := by exact_mod_cast x.den_nz
  have hy : ((y.den : ℚ)) ≠ 0 := by exact_mod_cast y.den_nz
  field_simp
  ring

theorem qMul_eq (x y : ℚ) : qMul x y = x * y := by
  rw [qMul, Rat.mkRat_eq_div]
  push_cast
  conv_rhs => rw [← Rat.num_div_den x, ← Rat.num_div_den y]
  have hx : ((x.den : ℚ)) ≠ 0 := by exact_mod_cast x.den_nz
  have hy : ((y.den : ℚ)) ≠ 0 := by exact_mod_cast y.den_nz
  field_simp

theorem den_mul_self_eq_num (y : ℚ) : (y.den : ℚ) * y = y.num := by
  have h2 := Rat.num_div_den y
  have hd : ((y.den : ℚ)) ≠ 0 := by exact_mod_cast y.den_nz
  nth_rewrite 2 [← h2]
  rw [mul_comm, div_mul_cancel₀ _ hd]

theorem qInv_eq (y : ℚ) : qInv y = y⁻¹ := by
  have hmul := den_mul_self_eq_num y
  rw [qInv]
  rcases lt_trichotomy y.num 0 with h | h | h
  · have hn : ((y.num : ℚ)) ≠ 0 := by
      intro h0
      have hz : y.num = 0 := by exact_mod_cast h0
      omega
    have habs : ((y.num.natAbs : ℚ)) = -(y.num : ℚ) := by
      rw [Int.cast_natAbs, abs_of_neg h]
      push_cast
      ring
    rw [if_pos h]
    refine eq_inv_of_mul_eq_one_left ?_
    rw [Rat.mkRat_eq_div, habs]
    push_cast
    rw [div_mul_eq_mul_div, div_eq_one_iff_eq (by simpa using hn)]
    rw [neg_mul, neg_inj, hmul]
  · have h0 : y = 0 := Rat.num_eq_zero.mp h
    rw [if_neg (by omega), h, h0]
    simp
  · have hn : ((y.num : ℚ)) ≠ 0 := by
      intro h0
      have hz : y.num = 0 := by exact_mod_cast h0
      omega
    have habs : ((y.num.natAbs : ℚ)) = (y.num : ℚ) := by
      rw [Int.cast_natAbs, abs_of_pos h]
    rw [if_neg (by omega)]
    refine eq_inv_of_mul_eq_one_left ?_
    rw [Rat.mkRat_eq_div, habs]
    rw [div_mul_eq_mul_div, div_eq_one_iff_eq hn]
    exact hmul

theorem qDiv_eq (x y : ℚ) : qDiv x y = x / y := by
  rw [qDiv, qMul_eq, qInv_eq, div_eq_mul_inv]

/-- Fuel-bounded search for the least `k` with `n < pw * 10 ^ k`.  Structural
recursion on the fuel keeps the definition kernel-reducible. -/
def digFindAux : ℕ → ℕ → ℕ → ℕ
  | 0, _, _ => 0
  | fuel + 1, pw, n => if n < pw then 0 else digFindAux fuel (pw * 10) n + 1

/-- Number of decimal digits of `n` (0 for 0): least `k` with `n < 10 ^ k`.
The fuel 400 covers every coefficient below `10 ^ 400`, far beyond anything
reachable from two-decimal-place inputs; the decimal module itself would hit
its exponent limits long before. -/
def digCount (n : ℕ) : ℕ := digFindAux 400 1 n

/-- Integer division of `n` by `d` rounded half to even (the decimal module's
ROUND_HALF_EVEN on the coefficient). -/
def halfEvenDiv (n d : ℕ) : ℕ :=
  let q := n / d
  let r := n % d
  if 2 * r < d then q
  else if d < 2 * r then q + 1
  else if q % 2 = 0 then q else q + 1

/-- Decides `10 ^ a ≤ n / d` for natural `n`, `d` and integer `a`. -/
def powLe (a : ℤ) (n d : ℕ) : Bool :=
  if 0 ≤ a then decide (10 ^ a.toNat * d ≤ n) else decide (d ≤ n * 10 ^ (-a).toNat)

/-- Correct rounding of an exact rational result to the 28 significant digits
of the decimal module's default context, ties to even.  For `x ≠ 0` it returns
`sign x * m * 10 ^ (e - 27)` where `e` is the adjusted exponent
(`10 ^ e ≤ |x| < 10 ^ (e + 1)`) and `m` is `|x| * 10 ^ (27 - e)` rounded half
to even.  A result with at most 28 significant digits is returned unchanged. -/
def ctxRound (x : ℚ) : ℚ :=
  if x = 0 then 0
  else
    let n := x.num.natAbs
    let d := x.den
    let a : ℤ := (digCount n : ℤ) - (digCount d : ℤ)
    let e : ℤ := if powLe a n d then a else a - 1
    let s : ℤ := 27 - e
    let m : ℕ :=
      if 0 ≤ s then halfEvenDiv (n * 10 ^ s.toNat) d else halfEvenDiv n (d * 10 ^ (-s).toNat)
    let mc : ℤ := if x.num < 0 then -(m : ℤ) else (m : ℤ)
    if 0 ≤ s then mkRat mc (10 ^ s.toNat) else mkRat (mc * ((10 ^ (-s).toNat : ℕ) : ℤ)) 1

/-- Python decimal addition under the default context. -/
def decAdd (x y : Dec) : Dec := ctxRound (qAdd x y)

/-- Python decimal subtraction under the default context. -/
def decSub (x y : Dec) : Dec := ctxRound (qSub x y)

/-- Python decimal multiplication under the default context. -/
def decMul (x y : Dec) : Dec := ctxRound (qMul x y)

/-- Python decimal division under the default context.  The aggregator only
divides by `Decimal('100')` and by a strictly positive total, so the
division-by-zero trap of the decimal module is never reachable. -/
def decDiv (x y : Dec) : Dec := ctxRound (qDiv x y)

theorem decAdd_def (x y : Dec) : decAdd x y = ctxRound (x + y) := by rw [decAdd, qAdd_eq]

theorem decSub_def (x y : Dec) : decSub x y = ctxRound (x - y) := by rw [decSub, qSub_eq]

theorem decMul_def (x y : Dec) : decMul x y = ctxRound (x * y) := by rw [decMul, qMul_eq]

theorem decDiv_def (x y : Dec) : decDiv x y = ctxRound (x / y) := by rw [decDiv, qDiv_eq]

/-! ### Data model (src/operations/models.py) -/

/-- `PurchaseContribution.ContributionType` (models.py lines 93-95). -/
inductive ContributionType
  | ABSOLUTE
  | PERCENTAGE
deriving DecidableEq, Repr

/-- `Sale.SaleStatus` (models.py lines 141-144). -/
inductive SaleStatus
  | DRAFT
  | CONFIRMED
  | SETTLED
deriving DecidableEq, Repr

/-- `PurchaseContribution` (models.py lines 92-117): the fields the dashboard
aggregation reads.  `payer` is declared non-nullable in the model, but
views.py line 86 guards on `contribution.payer_id` being truthy, so the
embedding keeps it optional and mirrors the guard. -/
structure PurchaseContribution where
  payer : Option ℕ
  contribution_type : ContributionType
  value : Dec
deriving DecidableEq, Repr

/-- `AdditionalCost` (models.py lines 120-137): `paid_by` is nullable. -/
structure AdditionalCost where
  amount : Dec
  paid_by : Option ℕ
deriving DecidableEq, Repr

/-- `SalePayment` (models.py lines 179-198): `receiver` is non-nullable. -/
structure SalePayment where
  receiver : ℕ
  amount : Dec
deriving DecidableEq, Repr

/-- `Sale` (models.py lines 140-176): the fields the dashboard reads, plus its
payments. -/
structure Sale where
  quantity : Dec
  unit_price : Dec
  status : SaleStatus
  payments : List SalePayment
deriving DecidableEq, Repr

/-- `Purchase` (models.py lines 34-89) with its prefetched children. -/
structure Purchase where
  quantity : Dec
  unit_cost : Dec
  signal_amount : Dec
  signal_paid_by : Option ℕ
  contributions : List PurchaseContribution
  additional_costs : List AdditionalCost
  sales : List Sale
deriving DecidableEq, Repr

/-- `User` (models.py lines 10-23 plus `AbstractUser.is_active`): only the
primary key and the active flag matter to the aggregation. -/
structure User where
  id : ℕ
  is_active : Bool
deriving DecidableEq, Repr

/-- The read-only snapshot the dashboard aggregation consumes: the user table
and all purchases with their prefetched children. -/
structure Snapshot where
  users : List User
  purchases : List Purchase
deriving DecidableEq, Repr

/-- `Purchase.total_base` (models.py lines 56-58):
`(quantity or 0) * (unit_cost or 0)`; both fields are non-nullable, so the
`or` guards are the identity. -/
def Purchase.total_base (p : Purchase) : Dec := decMul p.quantity p.unit_cost

/-- `Sale.total_price` (models.py lines 161-163). -/
def Sale.total_price (sl : Sale) : Dec := decMul sl.quantity sl.unit_price

/-- `Purchase.total_revenue` (models.py lines 73-85), prefetched branch:
`sum(sale.total_price for sale in self.sales.all())`, with Python `sum`
starting from 0 and folding from the left; `total or Decimal('0')` is the
identity on values. -/
def Purchase.total_revenue (p : Purchase) : Dec :=
  p.sales.foldl (fun acc sl => decAdd acc sl.total_price) 0

/-- `PurchaseContribution.resolved_amount` (models.py lines 110-117). -/
def resolved_amount (p : Purchase) (c : PurchaseContribution) : Dec :=
  match c.contribution_type with
  | .ABSOLUTE => c.value
  | .PERCENTAGE =>
    if p.total_base = 0 then 0 else decDiv (decMul p.total_base c.value) 100

/-! ### Ordered dictionaries

Python dicts preserve insertion order.  We model `defaultdict` values as
association lists: `alUpd` mutates an existing key in place and appends a
fresh one (the `defaultdict` access-then-mutate pattern), `alModify` mutates
only when the key is present (`dict.get`). -/

def alGet {α : Type} (k : ℕ) : List (ℕ × α) → Option α
  | [] => none
  | kv :: t => if kv.1 = k then some kv.2 else alGet k t

def alUpd {α : Type} (d : α) (k : ℕ) (f : α → α) : List (ℕ × α) → List (ℕ × α)
  | [] => [(k, f d)]
  | kv :: t => if kv.1 = k then (kv.1, f kv.2) :: t else kv :: alUpd d k f t

def alModify {α : Type} (k : ℕ) (f : α → α) : List (ℕ × α) → List (ℕ × α)
  | [] => []
  | kv :: t => if kv.1 = k then (kv.1, f kv.2) :: t else kv :: alModify k f t

def alKeys {α : Type} (m : List (ℕ × α)) : List ℕ := m.map (·.1)

/-- `purchase_investments[key] += v` on a `defaultdict(Decimal)`
(views.py lines 87, 91, 94): a fresh key starts from `Decimal()` = 0. -/
def bump (k : ℕ) (v : Dec) (m : List (ℕ × Dec)) : List (ℕ × Dec) :=
  alUpd 0 k (fun a => decAdd a v) m

/-! ### Dashboard aggregation (views.py lines 60-148) -/

/-- views.py lines 85-87: fold the purchase's contributions into the
per-purchase investment map, skipping null payers. -/
def investContribs (p : Purchase) (m : List (ℕ × Dec)) : List (ℕ × Dec) :=
  p.contributions.foldl
    (fun m c =>
      match c.payer with
      | some u => bump u (resolved_amount p c) m
      | none => m) m

/-- views.py lines 89-91: fold the purchase's additional costs into the
per-purchase investment map, skipping null payers. -/
def investCosts (p : Purchase) (m : List (ℕ × Dec)) : List (ℕ × Dec) :=
  p.additional_costs.foldl
    (fun m a =>
      match a.paid_by with
      | some u => bump u a.amount m
      | none => m) m

/-- Modelled from the spec: views.py line 94 reads
`purchase.signal_amount_eur`, a Purchase field that forms.py also lists but
that models.py of this snapshot does not define.  The spec (§3 and §4.1 step
2) calls this quantity the purchase's signal amount, which models.py line 40
stores as `signal_amount`.  The `or Decimal('0')` guard at line 94 is the
identity on values. -/
def signal_amount_eur (p : Purchase) : Dec := p.signal_amount

/-- The literal attribute lookup `purchase.signal_amount_eur` performed by
views.py line 94: the `Purchase` model (models.py lines 34-89) defines
`signal_amount` but no `signal_amount_eur`, so the lookup raises
`AttributeError`; the raised exception is modelled as `none`. -/
def signalAmountEurAttr (_p : Purchase) : Option Dec := none

/-- views.py lines 83-94 with the missing attribute modelled from the spec:
the per-purchase investment map. -/
def buildInvestments (p : Purchase) : List (ℕ × Dec) :=
  let m := investCosts p (investContribs p [])
  match p.signal_paid_by with
  | some u => bump u (signal_amount_eur p) m
  | none => m

/-- views.py lines 83-94 as written: building the per-purchase investment map
raises (`none`) whenever the purchase has a non-null signal payer, because
line 94 reads the nonexistent `signal_amount_eur` attribute. -/
def buildInvestmentsO (p : Purchase) : Option (List (ℕ × Dec)) :=
  let m := investCosts p (investContribs p [])
  match p.signal_paid_by with
  | some u => (signalAmountEurAttr p).map (fun v => bump u v m)
  | none => some m

/-- views.py line 96: `sum(purchase_investments.values())`. -/
def sumVals (l : List (ℕ × Dec)) : Dec := (l.map (·.2)).foldl decAdd 0

/-- `purchase_total_invested` of views.py line 96 for the investment map of
views.py lines 83-94. -/
def purchase_total_invested (p : Purchase) : Dec := sumVals (buildInvestments p)

/-- The per-user accumulator record of views.py lines 69-76: `user` is the
seeded user (or `None`), then `invested`, `attributed`, `actual`. -/
structure LedgerEntry where
  user : Option ℕ
  invested : Dec
  attributed : Dec
  actual : Dec
deriving DecidableEq, Repr

/-- The `defaultdict` default of views.py lines 70-76. -/
def defaultEntry : LedgerEntry := ⟨none, 0, 0, 0⟩

abbrev LedgerMap := List (ℕ × LedgerEntry)

/-- views.py lines 103-106: what one attribution step does to the payer's
accumulator entry.  `invested` is always accumulated; `attributed` only when
the purchase total is strictly positive and the revenue is non-zero (Decimal
truthiness of `purchase_revenue`). -/
def updEntry (total rev v : Dec) (e : LedgerEntry) : LedgerEntry :=
  let e2 := { e with invested := decAdd e.invested v }
  if 0 < total ∧ rev ≠ 0 then
    { e2 with attributed := decAdd e2.attributed (decMul (decDiv v total) rev) }
  else e2

/-- views.py lines 102-106: one step of the attribution loop, applied to the
ledger map at the payer's key (a `defaultdict` access). -/
def applyInvestment (total rev : Dec) (m : LedgerMap) (kv : ℕ × Dec) : LedgerMap :=
  alUpd defaultEntry kv.1 (updEntry total rev kv.2) m

/-- views.py lines 96-106 given an already-built investment map: compute the
total and the revenue, skip the purchase when the map is empty, otherwise run
the attribution loop over the map in insertion order. -/
def finishPurchase (m : LedgerMap) (p : Purchase) (inv : List (ℕ × Dec)) : LedgerMap :=
  if inv = [] then m
  else inv.foldl (applyInvestment (sumVals inv) p.total_revenue) m

/-- views.py lines 82-106, one purchase, with the missing attribute modelled
from the spec. -/
def processPurchase (m : LedgerMap) (p : Purchase) : LedgerMap :=
  finishPurchase m p (buildInvestments p)

/-- views.py lines 82-106, one purchase, as written: propagates the
`AttributeError` of line 94. -/
def processPurchaseO (m : LedgerMap) (p : Purchase) : Option LedgerMap :=
  (buildInvestmentsO p).map (finishPurchase m p)

/-- views.py lines 78-80: seed the ledger map with every active user. -/
def seedActive (s : Snapshot) : LedgerMap :=
  (s.users.filter (·.is_active)).foldl
    (fun m u => alUpd defaultEntry u.id (fun e => { e with user := some u.id }) m) []

/-- Every `SalePayment` row of the snapshot (the `SalePayment.objects` table:
each payment belongs to exactly one sale of one purchase). -/
def allPayments (s : Snapshot) : List SalePayment :=
  s.purchases.flatMap (fun p => p.sales.flatMap (·.payments))

/-- `receiver__is_active=True`: whether `uid` is the primary key of an active
user record. -/
def isActiveId (s : Snapshot) (uid : ℕ) : Bool :=
  s.users.any (fun u => u.id == uid && u.is_active)

/-- views.py lines 108-112: payment totals grouped by receiver, restricted to
active receivers, in first-appearance order. -/
def paymentTotals (s : Snapshot) : List (ℕ × Dec) :=
  (allPayments s).foldl
    (fun m pay => if isActiveId s pay.receiver then bump pay.receiver pay.amount m else m) []

/-- views.py lines 113-116: `ledger_map.get(receiver_id)` updates `actual`
only for receivers already present in the map; `payment['total'] or 0` is the
identity on values. -/
def applyPayments (s : Snapshot) (m : LedgerMap) : LedgerMap :=
  (paymentTotals s).foldl (fun m kv => alModify kv.1 (fun e => { e with actual := kv.2 }) m) m

/-- One emitted ledger row (views.py lines 126-135). -/
structure LedgerRow where
  user : ℕ
  invested : Dec
  received_actual : Dec
  received_attributed : Dec
  real_balance : Dec
  attributed_balance : Dec
deriving DecidableEq, Repr

/-- views.py lines 126-135: the row built from one accumulator entry. -/
def mkRow (uid : ℕ) (e : LedgerEntry) : LedgerRow :=
  { user := uid
    invested := e.invested
    received_actual := e.actual
    received_attributed := e.attributed
    real_balance := decSub e.actual e.invested
    attributed_balance := decSub e.attributed e.invested }

/-- views.py lines 118-135: emit one row per accumulator entry whose `user`
field was seeded, in insertion order. -/
def emitLedger (m : LedgerMap) : List LedgerRow :=
  m.filterMap
    (fun kv =>
      match kv.2.user with
      | some uid => some (mkRow uid kv.2)
      | none => none)

/-- The whole ledger aggregation of `DashboardView.get_context_data`
(views.py lines 69-135), with the missing `signal_amount_eur` attribute
modelled from the spec as the purchase's signal amount. -/
def dashboard_ledger (s : Snapshot) : List LedgerRow :=
  emitLedger (applyPayments s (s.purchases.foldl processPurchase (seedActive s)))

/-- The ledger aggregation as written: `none` models the `AttributeError`
raised at views.py line 94 for the first purchase with a non-null signal
payer. -/
def dashboard_ledgerO (s : Snapshot) : Option (List LedgerRow) :=
  (s.purchases.foldlM processPurchaseO (seedActive s)).map
    (fun m => emitLedger (applyPayments s m))

/-! ### Association-list lemmas -/

theorem alGet_alUpd {α : Type} (d : α) (k u : ℕ) (f : α → α) (m : List (ℕ × α)) :
    alGet u (alUpd d k f m) = if k = u then some (f ((alGet u m).getD d)) else alGet u m := by
  induction m with
  | nil => by_cases h : k = u <;> simp [alUpd, alGet, h]
  | cons kv t ih =>
    obtain ⟨a, b⟩ := kv
    by_cases ha : a = k
    · subst ha
      by_cases hu : a = u
      · subst hu
        simp [alUpd, alGet]
      · simp [alUpd, alGet, hu]
    · by_cases hu : a = u
      · subst hu
        have hk : k ≠ a := fun h => ha h.symm
        simp [alUpd, alGet, ha, hk]
      · simp [alUpd, alGet, ha, hu, ih]

theorem alGet_alModify {α : Type} (k u : ℕ) (f : α → α) (m : List (ℕ × α)) :
    alGet u (alModify k f m) = if k = u then (alGet u m).map f else alGet u m := by
  induction m with
  | nil => by_cases h : k = u <;> simp [alModify, alGet, h]
  | cons kv t ih =>
    obtain ⟨a, b⟩ := kv
    by_cases ha : a = k
    · subst ha
      by_cases hu : a = u
      · subst hu
        simp [alModify, alGet]
      · simp [alModify, alGet, hu]
    · by_cases hu : a = u
      · subst hu
        have hk : k ≠ a := fun h => ha h.symm
        simp [alModify, alGet, ha, hk]
      · simp [alModify, alGet, ha, hu, ih]

theorem alGet_eq_none_of_not_mem {α : Type} (u : ℕ) (m : List (ℕ × α)) (h : u ∉ alKeys m) :
    alGet u m = none := by
  induction m with
  | nil => simp [alGet]
  | cons kv t ih =>
    simp only [alKeys, List.map_cons, List.mem_cons] at h
    push_neg at h
    simp [alGet, Ne.symm h.1, ih h.2]

theorem alKeys_alUpd {α : Type} (d : α) (k : ℕ) (f : α → α) (m : List (ℕ × α)) :
    alKeys (alUpd d k f m) = if k ∈ alKeys m then alKeys m else alKeys m ++ [k] := by
  induction m with
  | nil => simp [alUpd, alKeys]
  | cons kv t ih =>
    obtain ⟨a, b⟩ := kv
    by_cases ha : a = k
    · subst ha
      simp [alUpd, alKeys]
    · have hk : k ≠ a := fun h => ha h.symm
      have hstep : alUpd d k f ((a, b) :: t) = (a, b) :: alUpd d k f t := by
        simp [alUpd, ha]
      have hmem : (k ∈ alKeys ((a, b) :: t)) ↔ (k ∈ alKeys t) := by
        simp [alKeys, hk]
      have hkeys : alKeys ((a, b) :: alUpd d k f t) = a :: alKeys (alUpd d k f t) := by
        simp [alKeys]
      have hkeys2 : alKeys ((a, b) :: t) = a :: alKeys t := by
        simp [alKeys]
      rw [hstep, hkeys, ih]
      simp only [hmem, hkeys2]
      by_cases hm : k ∈ alKeys t
      · simp [hm, hk]
      · simp [hm, hk]

theorem alKeys_nodup_alUpd {α : Type} (d : α) (k : ℕ) (f : α → α) (m : List (ℕ × α))
    (h : (alKeys m).Nodup) : (alKeys (alUpd d k f m)).Nodup := by
  rw [alKeys_alUpd]
  by_cases hm : k ∈ alKeys m
  · simpa [hm] using h
  · simp only [hm, if_false]
    simpa [List.nodup_append] using ⟨h, hm⟩

theorem alGet_of_mem_nodup {α : Type} (k : ℕ) (v : α) (m : List (ℕ × α))
    (hmem : (k, v) ∈ m) (hnd : (alKeys m).Nodup) : alGet k m = some v := by
  induction m with
  | nil => cases hmem
  | cons kv t ih =>
    rcases List.mem_cons.mp hmem with h | h
    · rw [← h]
      simp [alGet]
    · have hcons : alKeys (kv :: t) = kv.1 :: alKeys t := by simp [alKeys]
      rw [hcons, List.nodup_cons] at hnd
      have hk : kv.1 ≠ k := by
        intro he
        apply hnd.1
        rw [he]
        simp only [alKeys, List.mem_map]
        exact ⟨(k, v), h, rfl⟩
      simp [alGet, hk, ih h hnd.2]

theorem alUpd_not_mem_append {α : Type} (d : α) (k : ℕ) (f : α → α) (m : List (ℕ × α))
    (h : k ∉ alKeys m) : alUpd d k f m = m ++ [(k, f d)] := by
  induction m with
  | nil => simp [alUpd]
  | cons kv t ih =>
    simp only [alKeys, List.map_cons, List.mem_cons] at h
    push_neg at h
    have hk : kv.1 ≠ k := Ne.symm h.1
    simp [alUpd, hk, ih h.2]

theorem mem_alKeys_alUpd {α : Type} (d : α) (k u : ℕ) (f : α → α) (m : List (ℕ × α)) :
    u ∈ alKeys (alUpd d k f m) ↔ u ∈ alKeys m ∨ u = k := by
  rw [alKeys_alUpd]
  by_cases hm : k ∈ alKeys m
  · simp only [hm, if_true]
    constructor
    · exact fun h => Or.inl h
    · rintro (h | h)
      · exact h
      · rwa [h]
  · simp [hm]

/-! ### Building the per-purchase investment map as a fold of bumps -/

/-- The `(payer, amount)` pairs contributed by views.py lines 85-87. -/
def contribPairs (p : Purchase) : List (ℕ × Dec) :=
  p.contributions.filterMap (fun c => c.payer.map (fun u => (u, resolved_amount p c)))

/-- The `(payer, amount)` pairs contributed by views.py lines 89-91. -/
def costPairs (p : Purchase) : List (ℕ × Dec) :=
  p.additional_costs.filterMap (fun a => a.paid_by.map (fun u => (u, a.amount)))

/-- The `(payer, amount)` pair contributed by views.py lines 93-94 (with the
missing attribute modelled from the spec). -/
def signalPairs (p : Purchase) : List (ℕ × Dec) :=
  match p.signal_paid_by with
  | some u => [(u, signal_amount_eur p)]
  | none => []

/-- All `+=` operations on the investment map, in program order. -/
def investPairs (p : Purchase) : List (ℕ × Dec) :=
  contribPairs p ++ costPairs p ++ signalPairs p

/-- Folding a list of `+=` operations into an investment map. -/
def bumps (m : List (ℕ × Dec)) (l : List (ℕ × Dec)) : List (ℕ × Dec) :=
  l.foldl (fun m kv => bump kv.1 kv.2 m) m

theorem bumps_append (m : List (ℕ × Dec)) (l1 l2 : List (ℕ × Dec)) :
    bumps m (l1 ++ l2) = bumps (bumps m l1) l2 := by
  simp [bumps, List.foldl_append]

theorem investContribs_eq_bumps (p : Purchase) (m : List (ℕ × Dec)) :
    investContribs p m = bumps m (contribPairs p) := by
  rw [investContribs, contribPairs]
  induction p.contributions generalizing m with
  | nil => simp [bumps]
  | cons c t ih =>
    cases hc : c.payer with
    | none => simp [hc, ih]
    | some u => simp [bumps, hc, ih]

theorem investCosts_eq_bumps (p : Purchase) (m : List (ℕ × Dec)) :
    investCosts p m = bumps m (costPairs p) := by
  rw [investCosts, costPairs]
  induction p.additional_costs generalizing m with
  | nil => simp [bumps]
  | cons a t ih =>
    cases hc : a.paid_by with
    | none => simp [hc, ih]
    | some u => simp [bumps, hc, ih]

theorem buildInvestments_eq_bumps (p : Purchase) :
    buildInvestments p = bumps [] (investPairs p) := by
  rw [buildInvestments, investPairs, bumps_append, bumps_append]
  rw [← investContribs_eq_bumps, ← investCosts_eq_bumps]
  cases hs : p.signal_paid_by with
  | none => simp [signalPairs, hs, bumps]
  | some u => simp [signalPairs, hs, bumps, bump]

/-- The amounts a list of `+=` operations adds at key `u`, in order. -/
def valsFor (u : ℕ) (l : List (ℕ × Dec)) : List Dec :=
  l.filterMap (fun kv => if kv.1 = u then some kv.2 else none)

theorem alGet_bump (k u : ℕ) (v : Dec) (m : List (ℕ × Dec)) :
    alGet u (bump k v m) =
      if k = u then some (decAdd ((alGet u m).getD 0) v) else alGet u m := by
  rw [bump, alGet_alUpd]

theorem alGet_bumps (u : ℕ) (l : List (ℕ × Dec)) (m : List (ℕ × Dec)) :
    alGet u (bumps m l) =
      match alGet u m with
      | some a => some ((valsFor u l).foldl decAdd a)
      | none =>
        if valsFor u l = [] then none else some ((valsFor u l).foldl decAdd 0) := by
  induction l generalizing m with
  | nil =>
    cases h : alGet u m <;> simp [bumps, valsFor, h]
  | cons kv t ih =>
    have hstep : bumps m (kv :: t) = bumps (bump kv.1 kv.2 m) t := by
      simp [bumps, bump]
    rw [hstep, ih]
    by_cases hku : kv.1 = u
    · have hvals : valsFor u (kv :: t) = kv.2 :: valsFor u t := by
        simp [valsFor, hku]
      rw [alGet_bump]
      cases h : alGet u m <;> simp [h, hku, hvals]
    · have hvals : valsFor u (kv :: t) = valsFor u t := by
        simp [valsFor, hku]
      rw [alGet_bump]
      cases h : alGet u m <;> simp [h, hku, hvals]

/-! ### The per-user view of the investment map (claim C2) -/

/-- The resolved amounts of the purchase's contributions whose payer is `u`,
in order. -/
def contribItems (p : Purchase) (u : ℕ) : List Dec :=
  (p.contributions.filter (fun c => c.payer = some u)).map (resolved_amount p)

/-- The amounts of the purchase's additional costs whose payer is `u`, in
order. -/
def costItems (p : Purchase) (u : ℕ) : List Dec :=
  (p.additional_costs.filter (fun a => a.paid_by = some u)).map (·.amount)

/-- The signal amount, when `u` is the purchase's non-null signal payer. -/
def signalItems (p : Purchase) (u : ℕ) : List Dec :=
  if p.signal_paid_by = some u then [signal_amount_eur p] else []

/-- Every amount the aggregator adds to user `u`'s entry of the purchase's
investment map, in program order. -/
def userItems (p : Purchase) (u : ℕ) : List Dec :=
  contribItems p u ++ costItems p u ++ signalItems p u

theorem valsFor_append (u : ℕ) (l1 l2 : List (ℕ × Dec)) :
    valsFor u (l1 ++ l2) = valsFor u l1 ++ valsFor u l2 := by
  simp [valsFor]

theorem valsFor_contribPairs (p : Purchase) (u : ℕ) :
    valsFor u (contribPairs p) = contribItems p u := by
  rw [valsFor, contribPairs, contribItems]
  induction p.contributions with
  | nil => simp
  | cons c t ih =>
    cases hc : c.payer with
    | none => simp [hc, ih]
    | some w =>
      by_cases hw : w = u
      · subst hw
        simp [hc, ih]
      · simp [hc, hw, ih]

theorem valsFor_costPairs (p : Purchase) (u : ℕ) :
    valsFor u (costPairs p) = costItems p u := by
  rw [valsFor, costPairs, costItems]
  induction p.additional_costs with
  | nil => simp
  | cons a t ih =>
    cases hc : a.paid_by with
    | none => simp [hc, ih]
    | some w =>
      by_cases hw : w = u
      · subst hw
        simp [hc, ih]
      · simp [hc, hw, ih]

theorem valsFor_signalPairs (p : Purchase) (u : ℕ) :
    valsFor u (signalPairs p) = signalItems p u := by
  rw [valsFor, signalPairs, signalItems]
  cases hs : p.signal_paid_by with
  | none => simp [hs]
  | some w =>
    by_cases hw : w = u
    · subst hw
      simp
    · simp [hw, fun h : p.signal_paid_by = some u => hw (by rw [hs] at h; injection h)]

theorem valsFor_investPairs (p : Purchase) (u : ℕ) :
    valsFor u (investPairs p) = userItems p u := by
  rw [investPairs, userItems, valsFor_append, valsFor_append,
    valsFor_contribPairs, valsFor_costPairs, valsFor_signalPairs]

theorem ctxRound_zero : ctxRound 0 = 0 := by simp [ctxRound]

theorem decMul_zero_left (y : Dec) : decMul 0 y = 0 := by
  rw [decMul_def, zero_mul, ctxRound_zero]

theorem decDiv_zero_left (y : Dec) : decDiv 0 y = 0 := by
  rw [decDiv_def, zero_div, ctxRound_zero]

/-! ### Claim C2 -/

/-- Claim C2: for every purchase, the per-purchase investment map assigns to
each user the decimal sum of the resolved amounts of that purchase's
contributions whose payer is that user, the amounts of its additional costs
whose payer is that user, and the signal amount when that user is the
purchase's non-null signal payer; a user with none of these items is absent
from the map. -/
theorem C2_per_purchase_investment_map (p : Purchase) (u : ℕ) :
    alGet u (buildInvestments p) =
      if userItems p u = [] then none else some ((userItems p u).foldl decAdd 0) := by
  rw [buildInvestments_eq_bumps, alGet_bumps]
  simp [alGet, valsFor_investPairs]

/-! ### Claim C6 -/

/-- Claim C6: `resolved_amount` equals the stored value for an ABSOLUTE
contribution; for a PERCENTAGE contribution it equals
`total_base * value / 100` in context decimal arithmetic, and equals 0 when
`total_base` is 0. -/
theorem C6_resolved_amount (p : Purchase) (c : PurchaseContribution) :
    (c.contribution_type = ContributionType.ABSOLUTE → resolved_amount p c = c.value) ∧
    (c.contribution_type = ContributionType.PERCENTAGE →
      resolved_amount p c = decDiv (decMul p.total_base c.value) 100 ∧
        (p.total_base = 0 → resolved_amount p c = 0)) := by
  constructor
  · intro h
    simp [resolved_amount, h]
  · intro h
    constructor
    · by_cases hb : p.total_base = 0
      · rw [hb, decMul_zero_left, decDiv_zero_left]
        simp [resolved_amount, h, hb]
      · simp [resolved_amount, h, hb]
    · intro hb
      simp [resolved_amount, h, hb]

/-- A purchase with `total_base = 200` (the spec's example). -/
def pW6 : Purchase :=
  { quantity := 20, unit_cost := 10, signal_amount := 0, signal_paid_by := none,
    contributions := [], additional_costs := [], sales := [] }

/-- A purchase with `total_base = 0` (the spec's example). -/
def pW6z : Purchase :=
  { quantity := 0, unit_cost := 10, signal_amount := 0, signal_paid_by := none,
    contributions := [], additional_costs := [], sales := [] }

/-- A PERCENTAGE contribution of value 25 (the spec's example). -/
def cW6 : PurchaseContribution := ⟨some 1, .PERCENTAGE, 25⟩

/-- Claim C6 witness: a PERCENTAGE contribution of value 25 resolves to 50 on
a purchase with `total_base = 200` and to 0 on a purchase with
`total_base = 0`. -/
theorem C6_resolved_amount_witness :
    resolved_amount pW6 cW6 = 50 ∧ resolved_amount pW6z cW6 = 0 := by
  constructor
  · have h := (C6_resolved_amount pW6 cW6).2 rfl
    rw [h.1]
    decide
  · exact ((C6_resolved_amount pW6z cW6).2 rfl).2 (by decide)

/-! ### Claim C7 -/

/-- Claim C7: a purchase with no contribution or additional cost carrying a
non-null payer and no signal payer has an empty investment map, is silently
skipped (the ledger map is returned unchanged), and does not make the
aggregation fail even in the as-written variant. -/
theorem C7_empty_investment_map_skipped (m : LedgerMap) (p : Purchase)
    (h1 : ∀ c ∈ p.contributions, c.payer = none)
    (h2 : ∀ a ∈ p.additional_costs, a.paid_by = none)
    (h3 : p.signal_paid_by = none) :
    processPurchase m p = m ∧ processPurchaseO m p = some m := by
  have hcp : contribPairs p = [] := by
    rw [contribPairs, List.filterMap_eq_nil_iff]
    intro c hc
    rw [h1 c hc]
    rfl
  have hcost : costPairs p = [] := by
    rw [costPairs, List.filterMap_eq_nil_iff]
    intro a ha
    rw [h2 a ha]
    rfl
  have hsp : signalPairs p = [] := by
    rw [signalPairs, h3]
  have hbi : buildInvestments p = [] := by
    rw [buildInvestments_eq_bumps, investPairs, hcp, hcost, hsp]
    rfl
  constructor
  · rw [processPurchase, hbi, finishPurchase]
    simp
  · have hbo : buildInvestmentsO p = some (buildInvestments p) := by
      simp [buildInvestmentsO, buildInvestments, h3]
    rw [processPurchaseO, hbo]
    simp [hbi, finishPurchase]

/-- A purchase with only null payers and no signal payer. -/
def pW7 : Purchase :=
  { quantity := 1, unit_cost := 2, signal_amount := 3, signal_paid_by := none,
    contributions := [⟨none, .ABSOLUTE, 10⟩], additional_costs := [⟨5, none⟩],
    sales := [⟨1, 9, .DRAFT, []⟩] }

/-- Claim C7 witness: the all-null-payer purchase changes nothing and does
not fail. -/
theorem C7_empty_investment_map_skipped_witness :
    processPurchase [] pW7 = [] ∧ processPurchaseO [] pW7 = some [] :=
  C7_empty_investment_map_skipped [] pW7 (by decide) (by decide) (by decide)

/-! ### Effect of one purchase on the ledger map -/

theorem alKeys_nodup_bumps (m l : List (ℕ × Dec)) (h : (alKeys m).Nodup) :
    (alKeys (bumps m l)).Nodup := by
  induction l generalizing m with
  | nil => exact h
  | cons kv t ih =>
    have hstep : bumps m (kv :: t) = bumps (bump kv.1 kv.2 m) t := by
      simp [bumps, bump]
    rw [hstep]
    exact ih _ (alKeys_nodup_alUpd _ _ _ _ h)

theorem buildInvestments_keys_nodup (p : Purchase) : (alKeys (buildInvestments p)).Nodup := by
  rw [buildInvestments_eq_bumps]
  exact alKeys_nodup_bumps _ _ (by simp [alKeys])

/-- The accumulator entry the ledger map holds (or would create) for `u`. -/
def entryAt (m : LedgerMap) (u : ℕ) : LedgerEntry := (alGet u m).getD defaultEntry

/-- User `u`'s accumulated `invested` value. -/
def investedAt (m : LedgerMap) (u : ℕ) : Dec := (entryAt m u).invested

/-- User `u`'s accumulated `attributed` value. -/
def attributedAt (m : LedgerMap) (u : ℕ) : Dec := (entryAt m u).attributed

theorem alGet_foldl_applyInvestment (t r : Dec) (inv : List (ℕ × Dec)) (m : LedgerMap)
    (u : ℕ) (hnd : (alKeys inv).Nodup) :
    alGet u (inv.foldl (applyInvestment t r) m) =
      match alGet u inv with
      | some v => some (updEntry t r v ((alGet u m).getD defaultEntry))
      | none => alGet u m := by
  induction inv generalizing m with
  | nil => simp [alGet]
  | cons kv tl ih =>
    have hcons : alKeys (kv :: tl) = kv.1 :: alKeys tl := by simp [alKeys]
    rw [hcons, List.nodup_cons] at hnd
    have hstep : (kv :: tl).foldl (applyInvestment t r) m
        = tl.foldl (applyInvestment t r) (applyInvestment t r m kv) := by
      simp
    rw [hstep, ih _ hnd.2]
    by_cases hku : kv.1 = u
    · subst hku
      have hget_tl : alGet kv.1 tl = none := alGet_eq_none_of_not_mem _ _ hnd.1
      simp [hget_tl, applyInvestment, alGet_alUpd, alGet]
    · have hgm : alGet u (applyInvestment t r m kv) = alGet u m := by
        rw [applyInvestment, alGet_alUpd, if_neg hku]
      have hhd : alGet u (kv :: tl) = alGet u tl := by
        simp [alGet, hku]
      rw [hgm, hhd]

/-! ### Claim C3 -/

/-- Claim C3: for a purchase with strictly positive `purchase_total_invested`
and non-zero revenue, processing the purchase adds exactly
`(payer_invested / purchase_total_invested) * purchase_revenue` (in context
decimal arithmetic) to the payer's global `attributed` accumulator. -/
theorem C3_proportional_attribution (p : Purchase) (m : LedgerMap) (u : ℕ) (v : Dec)
    (hv : alGet u (buildInvestments p) = some v)
    (hpos : 0 < purchase_total_invested p)
    (hrev : p.total_revenue ≠ 0) :
    attributedAt (processPurchase m p) u =
      decAdd (attributedAt m u)
        (decMul (decDiv v (purchase_total_invested p)) p.total_revenue) := by
  have hne : buildInvestments p ≠ [] := by
    intro h
    rw [h] at hv
    simp [alGet] at hv
  have hnd := buildInvestments_keys_nodup p
  have hmain : alGet u (processPurchase m p) =
      some (updEntry (purchase_total_invested p) p.total_revenue v
        ((alGet u m).getD defaultEntry)) := by
    rw [processPurchase, finishPurchase, if_neg hne]
    rw [alGet_foldl_applyInvestment _ _ _ _ _ hnd, hv]
    rfl
  simp only [attributedAt, entryAt, hmain, Option.getD_some]
  simp [updEntry, hpos, hrev]

/-- The spec's worked example: contributors 1 and 2 invest 60 and 40
absolutely, one sale brings revenue 100. -/
def pEx3 : Purchase :=
  { quantity := 1, unit_cost := 1, signal_amount := 0, signal_paid_by := none,
    contributions := [⟨some 1, .ABSOLUTE, 60⟩, ⟨some 2, .ABSOLUTE, 40⟩],
    additional_costs := [], sales := [⟨1, 100, .CONFIRMED, []⟩] }

/-- Claim C3 witness: on the 60/40 purchase with revenue 100, user 1 is
attributed 60 and user 2 is attributed 40. -/
theorem C3_proportional_attribution_witness :
    attributedAt (processPurchase [] pEx3) 1 = 60 ∧
      attributedAt (processPurchase [] pEx3) 2 = 40 := by
  constructor
  · rw [C3_proportional_attribution pEx3 [] 1 60 (by decide) (by decide) (by decide)]
    decide
  · rw [C3_proportional_attribution pEx3 [] 2 40 (by decide) (by decide) (by decide)]
    decide

/-! ### Claim C8 -/

/-- Claim C8: a purchase with a non-empty investment map but zero revenue
adds each contributor's full invested amount to their global `invested`
accumulator and leaves every contributor's `attributed` accumulator
unchanged (the attribution branch is not taken, no division happens). -/
theorem C8_zero_revenue_invests_without_attribution (p : Purchase) (m : LedgerMap)
    (u : ℕ) (v : Dec)
    (hrev : p.total_revenue = 0)
    (hv : alGet u (buildInvestments p) = some v) :
    investedAt (processPurchase m p) u = decAdd (investedAt m u) v ∧
      attributedAt (processPurchase m p) u = attributedAt m u := by
  have hne : buildInvestments p ≠ [] := by
    intro h
    rw [h] at hv
    simp [alGet] at hv
  have hnd := buildInvestments_keys_nodup p
  have hcond : ¬(0 < purchase_total_invested p ∧ p.total_revenue ≠ 0) := by
    intro hc
    exact hc.2 hrev
  have hmain : alGet u (processPurchase m p) =
      some (updEntry (purchase_total_invested p) p.total_revenue v
        ((alGet u m).getD defaultEntry)) := by
    rw [processPurchase, finishPurchase, if_neg hne]
    rw [alGet_foldl_applyInvestment _ _ _ _ _ hnd, hv]
    rfl
  constructor
  · simp only [investedAt, entryAt, hmain, Option.getD_some]
    simp [updEntry, hcond]
  · simp only [attributedAt, entryAt, hmain, Option.getD_some]
    simp [updEntry, hcond]

/-- A purchase with contributors 60/40 and no sales (zero revenue). -/
def pW8 : Purchase :=
  { quantity := 1, unit_cost := 1, signal_amount := 0, signal_paid_by := none,
    contributions := [⟨some 1, .ABSOLUTE, 60⟩, ⟨some 2, .ABSOLUTE, 40⟩],
    additional_costs := [], sales := [] }

/-- Claim C8 witness: on the unsold 60/40 purchase, user 1's invested grows
by 60 while attributed stays 0. -/
theorem C8_zero_revenue_invests_without_attribution_witness :
    investedAt (processPurchase [] pW8) 1 = 60 ∧
      attributedAt (processPurchase [] pW8) 1 = 0 := by
  have h := C8_zero_revenue_invests_without_attribution pW8 [] 1 60 (by decide) (by decide)
  constructor
  · rw [h.1]
    decide
  · rw [h.2]
    decide

/-! ### Claim C1 -/

/-- A purchase whose signal payer is non-null (`signal_paid_by = user 1`). -/
def pC1 : Purchase :=
  { quantity := 1, unit_cost := 1, signal_amount := 10, signal_paid_by := some 1,
    contributions := [], additional_costs := [], sales := [] }

/-- A well-typed snapshot containing `pC1` and one active user. -/
def exC1 : Snapshot := { users := [⟨1, true⟩], purchases := [pC1] }

/-- Claim C1 is violated by the code: on a well-typed snapshot whose single
purchase has a non-null signal payer, the aggregation as written raises
(views.py line 94 reads the nonexistent `signal_amount_eur` attribute of
`Purchase`, models.py lines 34-89), modelled by `dashboard_ledgerO`
returning `none` instead of a result. -/
theorem C1_aggregation_raises_on_signal_payer :
    pC1.signal_paid_by = some 1 ∧ dashboard_ledgerO exC1 = none := by
  constructor
  · rfl
  · decide

/-! ### Claim C5 -/

/-- Exact (unrounded) rational sum of a list, kernel-reducible. -/
def qSum (l : List Dec) : Dec := l.foldl qAdd 0

theorem foldl_qAdd_eq (l : List Dec) (s : Dec) : l.foldl qAdd s = s + l.sum := by
  induction l generalizing s with
  | nil => simp
  | cons a t ih =>
    rw [List.foldl_cons, ih, qAdd_eq, List.sum_cons, add_assoc]

theorem qSum_eq (l : List Dec) : qSum l = l.sum := by
  rw [qSum, foldl_qAdd_eq, zero_add]

/-- The amount views.py lines 105-106 adds to each payer's `attributed`
accumulator for one purchase (0 when the attribution branch is skipped), per
entry of the investment map. -/
def attrAmounts (p : Purchase) : List Dec :=
  (buildInvestments p).map
    (fun kv =>
      if 0 < purchase_total_invested p ∧ p.total_revenue ≠ 0 then
        decMul (decDiv kv.2 (purchase_total_invested p)) p.total_revenue
      else 0)

/-- Three equal contributors of 1 splitting revenue 1. -/
def p5 : Purchase :=
  { quantity := 1, unit_cost := 1, signal_amount := 0, signal_paid_by := none,
    contributions := [⟨some 1, .ABSOLUTE, 1⟩, ⟨some 2, .ABSOLUTE, 1⟩, ⟨some 3, .ABSOLUTE, 1⟩],
    additional_costs := [], sales := [⟨1, 1, .CONFIRMED, []⟩] }

/-- Snapshot for the C5 counterexample: all three contributors are active
users, so every attributed amount appears in the emitted ledger. -/
def ex5 : Snapshot := { users := [⟨1, true⟩, ⟨2, true⟩, ⟨3, true⟩], purchases := [p5] }

/-- Claim C5 counterexample: on the single-purchase snapshot with three equal
contributors of 1 and revenue 1, the purchase has positive total invested,
yet the users' attributed amounts sum to 0.9999999999999999999999999999 (the
28-digit context rounding of each 1/3), not to the revenue 1: the claimed
exact partition is false under the decimal arithmetic the aggregator uses. -/
theorem C5_exact_partition_counterexample :
    0 < purchase_total_invested p5 ∧
      ((dashboard_ledger ex5).map (·.received_attributed)).sum ≠ p5.total_revenue := by
  constructor
  · decide
  · rw [← qSum_eq]
    decide

/-- Claim C5 as amended: the attributed amounts of one purchase with positive
total invested sum exactly to its revenue whenever the context-rounded
operations involved happen to be exact: when the rounded total equals the
exact sum of the map's values and each payer's rounded
`(invested / total) * revenue` equals the exact `invested * revenue / total`.
In general (claim C5 as stated) the 28-significant-digit rounding can make
the sum differ from the revenue. -/
theorem C5_exact_partition_amended (p : Purchase)
    (hpos : 0 < purchase_total_invested p)
    (hsum : purchase_total_invested p = ((buildInvestments p).map (·.2)).sum)
    (hexact : ∀ kv ∈ buildInvestments p,
      decMul (decDiv kv.2 (purchase_total_invested p)) p.total_revenue
        = kv.2 * p.total_revenue / purchase_total_invested p) :
    (attrAmounts p).sum = p.total_revenue := by
  have hT : (purchase_total_invested p : ℚ) ≠ 0 := ne_of_gt hpos
  by_cases hrev : p.total_revenue = 0
  · rw [attrAmounts]
    rw [List.sum_eq_zero, hrev]
    intro x hx
    rcases List.mem_map.mp hx with ⟨kv, _, hkv⟩
    rw [← hkv, if_neg (fun hc => hc.2 hrev)]
  · rw [attrAmounts]
    have hmap : (buildInvestments p).map
        (fun kv =>
          if 0 < purchase_total_invested p ∧ p.total_revenue ≠ 0 then
            decMul (decDiv kv.2 (purchase_total_invested p)) p.total_revenue
          else 0)
        = (buildInvestments p).map
            (fun kv => kv.2 * (p.total_revenue / purchase_total_invested p)) := by
      apply List.map_congr_left
      intro kv hkv
      rw [if_pos (And.intro hpos hrev), hexact kv hkv, mul_div_assoc]
    rw [hmap, List.sum_map_mul_right, ← hsum]
    field_simp

/-- The 60/40 purchase with revenue 100 again, for the C5 witness. -/
def pW5 : Purchase :=
  { quantity := 1, unit_cost := 1, signal_amount := 0, signal_paid_by := none,
    contributions := [⟨some 1, .ABSOLUTE, 60⟩, ⟨some 2, .ABSOLUTE, 40⟩],
    additional_costs := [], sales := [⟨1, 100, .CONFIRMED, []⟩] }

/-- Claim C5 amended witness: on the 60/40 purchase every rounding is exact
and the attributed amounts partition the revenue 100 exactly. -/
theorem C5_exact_partition_amended_witness : (attrAmounts pW5).sum = pW5.total_revenue := by
  apply C5_exact_partition_amended
  · decide
  · rw [← qSum_eq]
    decide
  · intro kv hkv
    have h1 : purchase_total_invested pW5 = 100 := by decide
    have h2 : pW5.total_revenue = 100 := by decide
    have hbi : buildInvestments pW5 = [(1, 60), (2, 40)] := by decide
    rw [h1, h2]
    rw [hbi] at hkv
    fin_cases hkv
    · have h3 : ((60 : ℚ)) * 100 / 100 = 60 := by norm_num
      rw [h3]
      decide
    · have h3 : ((40 : ℚ)) * 100 / 100 = 40 := by norm_num
      rw [h3]
      decide

/-! ### Claim C9 -/

/-- Normalize a sale's informational status. -/
def eraseSaleStatus (sl : Sale) : Sale := { sl with status := .DRAFT }

/-- Normalize the statuses of a purchase's sales. -/
def erasePurchaseStatus (p : Purchase) : Purchase :=
  { p with sales := p.sales.map eraseSaleStatus }

/-- Normalize every sale status of a snapshot: two snapshots are identical
except for sale statuses exactly when their normalizations agree. -/
def eraseStatus (s : Snapshot) : Snapshot :=
  { s with purchases := s.purchases.map erasePurchaseStatus }

theorem total_revenue_erase (p : Purchase) :
    (erasePurchaseStatus p).total_revenue = p.total_revenue := by
  simp [Purchase.total_revenue, erasePurchaseStatus, List.foldl_map, Sale.total_price,
    eraseSaleStatus]

theorem processPurchase_erase (m : LedgerMap) (p : Purchase) :
    processPurchase m (erasePurchaseStatus p) = processPurchase m p := by
  have hbi : buildInvestments (erasePurchaseStatus p) = buildInvestments p := rfl
  rw [processPurchase, processPurchase, hbi, finishPurchase, finishPurchase,
    total_revenue_erase]

theorem allPayments_erase (s : Snapshot) : allPayments (eraseStatus s) = allPayments s := by
  simp [allPayments, eraseStatus, erasePurchaseStatus, List.flatMap_map, eraseSaleStatus]

theorem dashboard_ledger_erase (s : Snapshot) :
    dashboard_ledger (eraseStatus s) = dashboard_ledger s := by
  have hseed : seedActive (eraseStatus s) = seedActive s := rfl
  have hfold : (eraseStatus s).purchases.foldl processPurchase (seedActive s)
      = s.purchases.foldl processPurchase (seedActive s) := by
    show (s.purchases.map erasePurchaseStatus).foldl processPurchase (seedActive s)
      = s.purchases.foldl processPurchase (seedActive s)
    rw [List.foldl_map]
    simp only [processPurchase_erase]
  have hpay : ∀ m, applyPayments (eraseStatus s) m = applyPayments s m := by
    intro m
    rw [applyPayments, applyPayments, paymentTotals, paymentTotals, allPayments_erase]
    rfl
  rw [dashboard_ledger, dashboard_ledger, hseed, hfold, hpay]

/-- Claim C9: two snapshots identical except for the status field of one or
more sales produce the same ledger output and the same per-purchase
`total_revenue` values — sale status is informational only and never affects
the aggregation. -/
theorem C9_sale_status_is_informational (s1 s2 : Snapshot)
    (h : eraseStatus s1 = eraseStatus s2) :
    s1.purchases.map Purchase.total_revenue = s2.purchases.map Purchase.total_revenue ∧
      dashboard_ledger s1 = dashboard_ledger s2 := by
  have keyR : ∀ s : Snapshot,
      (eraseStatus s).purchases.map Purchase.total_revenue
        = s.purchases.map Purchase.total_revenue := by
    intro s
    show (s.purchases.map erasePurchaseStatus).map Purchase.total_revenue
      = s.purchases.map Purchase.total_revenue
    rw [List.map_map]
    apply List.map_congr_left
    intro p hp
    exact total_revenue_erase p
  constructor
  · rw [← keyR s1, ← keyR s2, h]
  · rw [← dashboard_ledger_erase s1, ← dashboard_ledger_erase s2, h]

/-- A purchase with one DRAFT sale carrying one payment. -/
def pEx9a : Purchase :=
  { quantity := 1, unit_cost := 1, signal_amount := 0, signal_paid_by := none,
    contributions := [⟨some 1, .ABSOLUTE, 10⟩], additional_costs := [],
    sales := [⟨2, 7, .DRAFT, [⟨1, 5⟩]⟩] }

/-- The same purchase with the sale SETTLED instead. -/
def pEx9b : Purchase :=
  { quantity := 1, unit_cost := 1, signal_amount := 0, signal_paid_by := none,
    contributions := [⟨some 1, .ABSOLUTE, 10⟩], additional_costs := [],
    sales := [⟨2, 7, .SETTLED, [⟨1, 5⟩]⟩] }

/-- Snapshot with one DRAFT sale and one payment. -/
def ex9a : Snapshot := { users := [⟨1, true⟩], purchases := [pEx9a] }

/-- The same snapshot with the sale SETTLED instead. -/
def ex9b : Snapshot := { users := [⟨1, true⟩], purchases := [pEx9b] }

/-- Claim C9 witness: flipping the one sale from DRAFT to SETTLED changes
neither the revenues nor the ledger. -/
theorem C9_sale_status_is_informational_witness :
    ex9a.purchases.map Purchase.total_revenue = ex9b.purchases.map Purchase.total_revenue ∧
      dashboard_ledger ex9a = dashboard_ledger ex9b :=
  C9_sale_status_is_informational ex9a ex9b (by decide)

/-! ### Shape of the ledger map through the pipeline (claims C4 and C10) -/

/-- The primary keys of the active users, in table order. -/
def activeIds (s : Snapshot) : List ℕ := (s.users.filter (·.is_active)).map (·.id)

/-- The accumulator entry right after seeding (views.py line 80). -/
def seededEntry (uid : ℕ) : LedgerEntry :=
  { user := some uid, invested := 0, attributed := 0, actual := 0 }

/-- The seeded users of the ledger map entries, in insertion order. -/
def emittedUsers (m : LedgerMap) : List ℕ := m.filterMap (fun kv => kv.2.user)

theorem seedFold (l : List User) (m : LedgerMap)
    (hnd : (l.map (·.id)).Nodup)
    (hdisj : ∀ u ∈ l, u.id ∉ alKeys m) :
    l.foldl (fun m u => alUpd defaultEntry u.id (fun e => { e with user := some u.id }) m) m
      = m ++ l.map (fun u => (u.id, seededEntry u.id)) := by
  induction l generalizing m with
  | nil => simp
  | cons u t ih =>
    rw [List.foldl_cons]
    have hstep : alUpd defaultEntry u.id (fun e => { e with user := some u.id }) m
        = m ++ [(u.id, seededEntry u.id)] := by
      rw [alUpd_not_mem_append _ _ _ _ (hdisj u (by simp))]
      rfl
    rw [hstep]
    rw [List.map_cons] at hnd
    have hnd2 := List.nodup_cons.mp hnd
    have hdisj2 : ∀ w ∈ t, w.id ∉ alKeys (m ++ [(u.id, seededEntry u.id)]) := by
      intro w hw
      have hkeys : alKeys (m ++ [(u.id, seededEntry u.id)]) = alKeys m ++ [u.id] := by
        simp [alKeys]
      rw [hkeys]
      intro hmem
      rcases List.mem_append.mp hmem with hc | hc
      · exact hdisj w (List.mem_cons_of_mem _ hw) hc
      · apply hnd2.1
        have hid : w.id = u.id := List.mem_singleton.mp hc
        rw [← hid]
        exact List.mem_map.mpr ⟨w, hw, rfl⟩
    rw [ih _ hnd2.2 hdisj2]
    simp

theorem seedActive_eq (s : Snapshot) (hnd : (s.users.map (·.id)).Nodup) :
    seedActive s = (s.users.filter (·.is_active)).map (fun u => (u.id, seededEntry u.id)) := by
  have hfil : ((s.users.filter (·.is_active)).map (·.id)).Nodup := by
    apply List.Nodup.sublist _ hnd
    exact List.Sublist.map _ (List.filter_sublist _)
  rw [seedActive, seedFold _ _ hfil (by intro u hu; simp [alKeys])]
  rfl

theorem updEntry_user (t r v : Dec) (e : LedgerEntry) : (updEntry t r v e).user = e.user := by
  rw [updEntry]
  by_cases hc : 0 < t ∧ r ≠ 0
  · simp [hc]
  · simp [hc]

theorem emittedUsers_alUpd (k : ℕ) (f : LedgerEntry → LedgerEntry) (m : LedgerMap)
    (hpres : ∀ e, (f e).user = e.user) (hdef : (f defaultEntry).user = none) :
    emittedUsers (alUpd defaultEntry k f m) = emittedUsers m := by
  induction m with
  | nil => simp [alUpd, emittedUsers, hdef]
  | cons kv t ih =>
    by_cases hk : kv.1 = k
    · have hstep : alUpd defaultEntry k f (kv :: t) = (kv.1, f kv.2) :: t := by
        simp [alUpd, hk]
      rw [hstep]
      simp only [emittedUsers, List.filterMap_cons]
      rw [hpres kv.2]
    · have hstep : alUpd defaultEntry k f (kv :: t) = kv :: alUpd defaultEntry k f t := by
        simp [alUpd, hk]
      rw [hstep]
      simp only [emittedUsers, List.filterMap_cons] at ih ⊢
      rw [ih]

theorem emittedUsers_foldl_applyInvestment (t r : Dec) (inv : List (ℕ × Dec)) (m : LedgerMap) :
    emittedUsers (inv.foldl (applyInvestment t r) m) = emittedUsers m := by
  induction inv generalizing m with
  | nil => rfl
  | cons kv tl ih =>
    rw [List.foldl_cons, ih]
    exact emittedUsers_alUpd _ _ _ (updEntry_user t r kv.2) (updEntry_user t r kv.2 defaultEntry)

theorem emittedUsers_finishPurchase (m : LedgerMap) (p : Purchase) (inv : List (ℕ × Dec)) :
    emittedUsers (finishPurchase m p inv) = emittedUsers m := by
  rw [finishPurchase]
  by_cases hinv : inv = []
  · rw [if_pos hinv]
  · rw [if_neg hinv]
    exact emittedUsers_foldl_applyInvestment _ _ _ _

theorem emittedUsers_processPurchases (ps : List Purchase) (m : LedgerMap) :
    emittedUsers (ps.foldl processPurchase m) = emittedUsers m := by
  induction ps generalizing m with
  | nil => rfl
  | cons p t ih =>
    rw [List.foldl_cons, ih, processPurchase]
    exact emittedUsers_finishPurchase _ _ _

theorem emittedUsers_alModify (k : ℕ) (f : LedgerEntry → LedgerEntry) (m : LedgerMap)
    (hpres : ∀ e, (f e).user = e.user) :
    emittedUsers (alModify k f m) = emittedUsers m := by
  induction m with
  | nil => rfl
  | cons kv t ih =>
    by_cases hk : kv.1 = k
    · have hstep : alModify k f (kv :: t) = (kv.1, f kv.2) :: t := by
        simp [alModify, hk]
      rw [hstep]
      simp only [emittedUsers, List.filterMap_cons]
      rw [hpres kv.2]
    · have hstep : alModify k f (kv :: t) = kv :: alModify k f t := by
        simp [alModify, hk]
      rw [hstep]
      simp only [emittedUsers, List.filterMap_cons] at ih ⊢
      rw [ih]

theorem emittedUsers_applyPayments (s : Snapshot) (m : LedgerMap) :
    emittedUsers (applyPayments s m) = emittedUsers m := by
  rw [applyPayments]
  induction paymentTotals s generalizing m with
  | nil => rfl
  | cons kv t ih =>
    rw [List.foldl_cons, ih]
    exact emittedUsers_alModify _ _ _ (fun e => rfl)

theorem filterMap_some_eq_map {α β : Type} (g : α → β) (l : List α) :
    l.filterMap (fun a => some (g a)) = l.map g := by
  induction l with
  | nil => rfl
  | cons a t ih => simp [List.filterMap_cons, ih]

theorem emittedUsers_seedActive (s : Snapshot) (hnd : (s.users.map (·.id)).Nodup) :
    emittedUsers (seedActive s) = activeIds s := by
  rw [seedActive_eq s hnd, activeIds, emittedUsers, List.filterMap_map]
  exact filterMap_some_eq_map _ _

theorem ledger_users_eq_emittedUsers (m : LedgerMap) :
    (emitLedger m).map (·.user) = emittedUsers m := by
  induction m with
  | nil => rfl
  | cons kv t ih =>
    cases hu : kv.2.user with
    | none =>
      simp only [emitLedger, emittedUsers, List.filterMap_cons, hu] at ih ⊢
      exact ih
    | some uid =>
      simp only [emitLedger, emittedUsers, List.filterMap_cons, hu, List.map_cons] at ih ⊢
      rw [ih]
      rfl

theorem alGet_processPurchase_not_mem (m : LedgerMap) (p : Purchase) (u : ℕ)
    (h : alGet u (buildInvestments p) = none) :
    alGet u (processPurchase m p) = alGet u m := by
  rw [processPurchase, finishPurchase]
  by_cases hinv : buildInvestments p = []
  · rw [if_pos hinv]
  · rw [if_neg hinv]
    rw [alGet_foldl_applyInvestment _ _ _ _ _ (buildInvestments_keys_nodup p), h]

theorem alGet_processPurchases_not_mem (ps : List Purchase) (m : LedgerMap) (u : ℕ)
    (h : ∀ p ∈ ps, alGet u (buildInvestments p) = none) :
    alGet u (ps.foldl processPurchase m) = alGet u m := by
  induction ps generalizing m with
  | nil => rfl
  | cons p t ih =>
    rw [List.foldl_cons, ih _ (fun q hq => h q (List.mem_cons_of_mem _ hq)),
      alGet_processPurchase_not_mem _ _ _ (h p (by simp))]

theorem mem_alKeys_bumps (u : ℕ) (l m : List (ℕ × Dec)) (h : u ∈ alKeys (bumps m l)) :
    u ∈ alKeys m ∨ u ∈ l.map (·.1) := by
  induction l generalizing m with
  | nil => exact Or.inl h
  | cons kv t ih =>
    have hstep : bumps m (kv :: t) = bumps (bump kv.1 kv.2 m) t := by
      simp [bumps, bump]
    rw [hstep] at h
    rcases ih _ h with hc | hc
    · rcases (mem_alKeys_alUpd _ _ _ _ _).mp hc with hd | hd
      · exact Or.inl hd
      · right
        simp [hd]
    · right
      simp [hc]

theorem mem_keys_buildInvestments (p : Purchase) (u : ℕ)
    (h : u ∈ alKeys (buildInvestments p)) :
    (∃ c ∈ p.contributions, c.payer = some u) ∨
      (∃ a ∈ p.additional_costs, a.paid_by = some u) ∨
      p.signal_paid_by = some u := by
  rw [buildInvestments_eq_bumps] at h
  rcases mem_alKeys_bumps _ _ _ h with hc | hc
  · simp [alKeys] at hc
  · rw [investPairs] at hc
    simp only [List.map_append, List.mem_append] at hc
    rcases hc with (hc | hc) | hc
    · left
      rcases List.mem_map.mp hc with ⟨kv, hkv, hfst⟩
      rcases List.mem_filterMap.mp hkv with ⟨c, hcin, hcp⟩
      cases hp : c.payer with
      | none => rw [hp] at hcp; cases hcp
      | some w =>
        rw [hp] at hcp
        refine ⟨c, hcin, ?_⟩
        rw [hp]
        have : kv = (w, resolved_amount p c) := by
          simpa using hcp.symm
        rw [this] at hfst
        rw [← hfst]
    · right
      left
      rcases List.mem_map.mp hc with ⟨kv, hkv, hfst⟩
      rcases List.mem_filterMap.mp hkv with ⟨a, hain, hap⟩
      cases hp : a.paid_by with
      | none => rw [hp] at hap; cases hap
      | some w =>
        rw [hp] at hap
        refine ⟨a, hain, ?_⟩
        rw [hp]
        have : kv = (w, a.amount) := by
          simpa using hap.symm
        rw [this] at hfst
        rw [← hfst]
    · right
      right
      rw [signalPairs] at hc
      cases hs : p.signal_paid_by with
      | none => rw [hs] at hc; cases hc
      | some w =>
        rw [hs] at hc
        simp at hc
        simp [hc]

theorem mem_keys_paymentFold (l : List SalePayment) (s : Snapshot)
    (m : List (ℕ × Dec)) (u : ℕ)
    (h : u ∈ alKeys (l.foldl
      (fun m pay => if isActiveId s pay.receiver then bump pay.receiver pay.amount m else m) m)) :
    u ∈ alKeys m ∨ ∃ pay ∈ l, pay.receiver = u := by
  induction l generalizing m with
  | nil => exact Or.inl h
  | cons pay t ih =>
    rw [List.foldl_cons] at h
    rcases ih _ h with hc | hc
    · by_cases hact : isActiveId s pay.receiver
      · rw [if_pos hact] at hc
        rcases (mem_alKeys_alUpd _ _ _ _ _).mp hc with hd | hd
        · exact Or.inl hd
        · exact Or.inr ⟨pay, by simp, hd.symm⟩
      · rw [if_neg hact] at hc
        exact Or.inl hc
    · rcases hc with ⟨q, hq, hqr⟩
      exact Or.inr ⟨q, List.mem_cons_of_mem _ hq, hqr⟩

theorem alGet_foldl_actual_not_mem (pt : List (ℕ × Dec)) (m : LedgerMap) (u : ℕ)
    (h : ∀ kv ∈ pt, kv.1 ≠ u) :
    alGet u (pt.foldl (fun m kv => alModify kv.1 (fun e => { e with actual := kv.2 }) m) m)
      = alGet u m := by
  induction pt generalizing m with
  | nil => rfl
  | cons kv t ih =>
    rw [List.foldl_cons, ih _ (fun w hw => h w (List.mem_cons_of_mem _ hw))]
    rw [alGet_alModify, if_neg (h kv (by simp))]

theorem alGet_applyPayments_not_mem (s : Snapshot) (m : LedgerMap) (u : ℕ)
    (h : ∀ pay ∈ allPayments s, pay.receiver ≠ u) :
    alGet u (applyPayments s m) = alGet u m := by
  have hkeys : ∀ kv ∈ paymentTotals s, kv.1 ≠ u := by
    intro kv hkv he
    have hmem : kv.1 ∈ alKeys (paymentTotals s) := List.mem_map_of_mem _ hkv
    rcases mem_keys_paymentFold _ _ _ _ hmem with hc | hc
    · simp [alKeys] at hc
    · rcases hc with ⟨pay, hpay, hpr⟩
      exact h pay hpay (by rw [hpr, he])
  rw [applyPayments]
  exact alGet_foldl_actual_not_mem _ _ _ hkeys

/-- Every entry whose `user` field is set carries its own key: the invariant
linking views.py line 80 (seeding) to lines 118-135 (emission). -/
def keyUserConsistent (m : LedgerMap) : Prop :=
  ∀ kv ∈ m, ∀ uid, kv.2.user = some uid → uid = kv.1

theorem keyUserConsistent_alUpd (k : ℕ) (f : LedgerEntry → LedgerEntry) (m : LedgerMap)
    (hpres : ∀ e, (f e).user = e.user) (hdef : (f defaultEntry).user = none)
    (h : keyUserConsistent m) : keyUserConsistent (alUpd defaultEntry k f m) := by
  induction m with
  | nil =>
    intro kv hkv uid huser
    simp [alUpd] at hkv
    have huser2 : (f defaultEntry).user = some uid := by
      rw [hkv] at huser
      exact huser
    rw [hdef] at huser2
    cases huser2
  | cons kv0 t ih =>
    intro kv hkv uid huser
    by_cases hk : kv0.1 = k
    · have hstep : alUpd defaultEntry k f (kv0 :: t) = (kv0.1, f kv0.2) :: t := by
        simp [alUpd, hk]
      rw [hstep] at hkv
      rcases List.mem_cons.mp hkv with hkv | hkv
      · have huser2 : (f kv0.2).user = some uid := by
          rw [hkv] at huser
          exact huser
        rw [hpres] at huser2
        have hres := h kv0 (by simp) uid huser2
        rw [hkv]
        exact hres
      · exact h kv (List.mem_cons_of_mem _ hkv) uid huser
    · have hstep : alUpd defaultEntry k f (kv0 :: t) = kv0 :: alUpd defaultEntry k f t := by
        simp [alUpd, hk]
      rw [hstep] at hkv
      rcases List.mem_cons.mp hkv with hkv | hkv
      · have hres := h kv0 (by simp) uid (by rw [hkv] at huser; exact huser)
        rw [hkv]
        exact hres
      · exact ih (fun w hw => h w (List.mem_cons_of_mem _ hw)) kv hkv uid huser

theorem keyUserConsistent_alModify (k : ℕ) (f : LedgerEntry → LedgerEntry) (m : LedgerMap)
    (hpres : ∀ e, (f e).user = e.user)
    (h : keyUserConsistent m) : keyUserConsistent (alModify k f m) := by
  induction m with
  | nil =>
    intro kv hkv
    cases hkv
  | cons kv0 t ih =>
    intro kv hkv uid huser
    by_cases hk : kv0.1 = k
    · have hstep : alModify k f (kv0 :: t) = (kv0.1, f kv0.2) :: t := by
        simp [alModify, hk]
      rw [hstep] at hkv
      rcases List.mem_cons.mp hkv with hkv | hkv
      · have huser2 : (f kv0.2).user = some uid := by
          rw [hkv] at huser
          exact huser
        rw [hpres] at huser2
        have hres := h kv0 (by simp) uid huser2
        rw [hkv]
        exact hres
      · exact h kv (List.mem_cons_of_mem _ hkv) uid huser
    · have hstep : alModify k f (kv0 :: t) = kv0 :: alModify k f t := by
        simp [alModify, hk]
      rw [hstep] at hkv
      rcases List.mem_cons.mp hkv with hkv | hkv
      · have hres := h kv0 (by simp) uid (by rw [hkv] at huser; exact huser)
        rw [hkv]
        exact hres
      · exact ih (fun w hw => h w (List.mem_cons_of_mem _ hw)) kv hkv uid huser

theorem keyUserConsistent_foldl_applyInvestment (t r : Dec) (inv : List (ℕ × Dec))
    (m : LedgerMap) (h : keyUserConsistent m) :
    keyUserConsistent (inv.foldl (applyInvestment t r) m) := by
  induction inv generalizing m with
  | nil => exact h
  | cons kv tl ih =>
    rw [List.foldl_cons]
    exact ih _ (keyUserConsistent_alUpd _ _ _ (updEntry_user t r kv.2)
      (updEntry_user t r kv.2 defaultEntry) h)

theorem keyUserConsistent_processPurchases (ps : List Purchase) (m : LedgerMap)
    (h : keyUserConsistent m) : keyUserConsistent (ps.foldl processPurchase m) := by
  induction ps generalizing m with
  | nil => exact h
  | cons p tl ih =>
    rw [List.foldl_cons]
    apply ih
    rw [processPurchase, finishPurchase]
    by_cases hinv : buildInvestments p = []
    · rwa [if_pos hinv]
    · rw [if_neg hinv]
      exact keyUserConsistent_foldl_applyInvestment _ _ _ _ h

theorem keyUserConsistent_applyPayments (s : Snapshot) (m : LedgerMap)
    (h : keyUserConsistent m) : keyUserConsistent (applyPayments s m) := by
  rw [applyPayments]
  induction paymentTotals s generalizing m with
  | nil => exact h
  | cons kv tl ih =>
    rw [List.foldl_cons]
    exact ih _ (keyUserConsistent_alModify _ _ _ (fun e => rfl) h)

theorem keyUserConsistent_seedActive (s : Snapshot) (hnd : (s.users.map (·.id)).Nodup) :
    keyUserConsistent (seedActive s) := by
  rw [seedActive_eq s hnd]
  intro kv hkv uid huser
  rcases List.mem_map.mp hkv with ⟨u, hu, hkveq⟩
  subst hkveq
  simp [seededEntry] at huser
  simp [huser]

theorem activeIds_nodup (s : Snapshot) (hnd : (s.users.map (·.id)).Nodup) :
    (activeIds s).Nodup := by
  apply List.Nodup.sublist _ hnd
  exact List.Sublist.map _ (List.filter_sublist _)

theorem alKeys_alModify {α : Type} (k : ℕ) (f : α → α) (m : List (ℕ × α)) :
    alKeys (alModify k f m) = alKeys m := by
  induction m with
  | nil => rfl
  | cons kv t ih =>
    by_cases hk : kv.1 = k
    · simp [alModify, hk, alKeys]
    · simp only [alModify, hk, if_false]
      simp [alKeys] at ih ⊢
      exact ih

theorem alKeys_nodup_foldl_applyInvestment (t r : Dec) (inv : List (ℕ × Dec))
    (m : LedgerMap) (h : (alKeys m).Nodup) :
    (alKeys (inv.foldl (applyInvestment t r) m)).Nodup := by
  induction inv generalizing m with
  | nil => exact h
  | cons kv tl ih =>
    rw [List.foldl_cons]
    exact ih _ (alKeys_nodup_alUpd _ _ _ _ h)

theorem alKeys_nodup_processPurchases (ps : List Purchase) (m : LedgerMap)
    (h : (alKeys m).Nodup) : (alKeys (ps.foldl processPurchase m)).Nodup := by
  induction ps generalizing m with
  | nil => exact h
  | cons p tl ih =>
    rw [List.foldl_cons]
    apply ih
    rw [processPurchase, finishPurchase]
    by_cases hinv : buildInvestments p = []
    · rwa [if_pos hinv]
    · rw [if_neg hinv]
      exact alKeys_nodup_foldl_applyInvestment _ _ _ _ h

theorem alKeys_applyPayments (s : Snapshot) (m : LedgerMap) :
    alKeys (applyPayments s m) = alKeys m := by
  rw [applyPayments]
  induction paymentTotals s generalizing m with
  | nil => rfl
  | cons kv tl ih =>
    rw [List.foldl_cons, ih, alKeys_alModify]

theorem alKeys_seedActive (s : Snapshot) (hnd : (s.users.map (·.id)).Nodup) :
    alKeys (seedActive s) = activeIds s := by
  rw [seedActive_eq s hnd, activeIds]
  simp [alKeys, List.map_map]

theorem mem_emitLedger (m : LedgerMap) (r : LedgerRow) (h : r ∈ emitLedger m) :
    ∃ kv ∈ m, kv.2.user = some r.user ∧ r = mkRow r.user kv.2 := by
  rcases List.mem_filterMap.mp h with ⟨kv, hkv, heq⟩
  cases hu : kv.2.user with
  | none =>
    rw [hu] at heq
    cases heq
  | some uid =>
    rw [hu] at heq
    have hr : r = mkRow uid kv.2 := (Option.some.inj heq).symm
    have huser : r.user = uid := by
      rw [hr]
      rfl
    refine ⟨kv, hkv, ?_, ?_⟩
    · rw [hu, huser]
    · rw [hr]
      rfl

theorem alGet_seedActive (s : Snapshot) (uid : ℕ) (hnd : (s.users.map (·.id)).Nodup)
    (hact : uid ∈ activeIds s) :
    alGet uid (seedActive s) = some (seededEntry uid) := by
  rw [seedActive_eq s hnd]
  apply alGet_of_mem_nodup
  · rcases List.mem_map.mp hact with ⟨u, hu, hid⟩
    exact List.mem_map.mpr ⟨u, hu, by rw [hid]⟩
  · have hkeys : alKeys ((s.users.filter (·.is_active)).map
        (fun u => (u.id, seededEntry u.id))) = activeIds s := by
      simp [alKeys, activeIds, List.map_map]
    rw [hkeys]
    exact activeIds_nodup s hnd

/-! ### Claim C10 -/

/-- User `uid` is a payer nowhere in the snapshot and receives no payment. -/
def noActivity (s : Snapshot) (uid : ℕ) : Prop :=
  (∀ p ∈ s.purchases,
    (∀ c ∈ p.contributions, c.payer ≠ some uid) ∧
      (∀ a ∈ p.additional_costs, a.paid_by ≠ some uid) ∧
      p.signal_paid_by ≠ some uid) ∧
  ∀ pay ∈ allPayments s, pay.receiver ≠ uid

/-- Claim C10: the emitted ledger has exactly one row per active user, in
user-table order — a row for every active user even with no activity (such a
row has `invested`, `received_actual` and `received_attributed` all zero),
and no row for any other user id, even one that contributed to a purchase
(the investment map and its total are built from the purchases alone, so such
a contribution still feeds `purchase_total_invested`). -/
theorem C10_ledger_rows_are_exactly_active_users (s : Snapshot)
    (hnd : (s.users.map (·.id)).Nodup) :
    (dashboard_ledger s).map (·.user) = activeIds s ∧
      ∀ r ∈ dashboard_ledger s, noActivity s r.user →
        r.invested = 0 ∧ r.received_actual = 0 ∧ r.received_attributed = 0 := by
  have ha : (dashboard_ledger s).map (·.user) = activeIds s := by
    rw [dashboard_ledger, ledger_users_eq_emittedUsers, emittedUsers_applyPayments,
      emittedUsers_processPurchases, emittedUsers_seedActive s hnd]
  refine ⟨ha, ?_⟩
  intro r hr hna
  have hr2 : r ∈ emitLedger (applyPayments s (s.purchases.foldl processPurchase (seedActive s))) := hr
  obtain ⟨kv, hkvM, huser, hrEq⟩ := mem_emitLedger _ r hr2
  have hP : keyUserConsistent (applyPayments s (s.purchases.foldl processPurchase (seedActive s))) :=
    keyUserConsistent_applyPayments _ _
      (keyUserConsistent_processPurchases _ _ (keyUserConsistent_seedActive s hnd))
  have hkey : r.user = kv.1 := hP kv hkvM r.user huser
  have hndM : (alKeys (applyPayments s (s.purchases.foldl processPurchase (seedActive s)))).Nodup := by
    rw [alKeys_applyPayments]
    apply alKeys_nodup_processPurchases
    rw [alKeys_seedActive s hnd]
    exact activeIds_nodup s hnd
  have hget : alGet kv.1 (applyPayments s (s.purchases.foldl processPurchase (seedActive s)))
      = some kv.2 := alGet_of_mem_nodup _ _ _ hkvM hndM
  have hbuild : ∀ p ∈ s.purchases, alGet r.user (buildInvestments p) = none := by
    intro p hp
    by_cases hmem : r.user ∈ alKeys (buildInvestments p)
    · exfalso
      rcases mem_keys_buildInvestments p _ hmem with hc | hc | hc
      · rcases hc with ⟨c, hcin, hcp⟩
        exact (hna.1 p hp).1 c hcin hcp
      · rcases hc with ⟨a, hain, hap⟩
        exact (hna.1 p hp).2.1 a hain hap
      · exact (hna.1 p hp).2.2 hc
    · exact alGet_eq_none_of_not_mem _ _ hmem
  have hact : r.user ∈ activeIds s := by
    rw [← ha]
    exact List.mem_map_of_mem _ hr
  have huntouched : alGet r.user (applyPayments s (s.purchases.foldl processPurchase (seedActive s)))
      = some (seededEntry r.user) := by
    rw [alGet_applyPayments_not_mem _ _ _ hna.2,
      alGet_processPurchases_not_mem _ _ _ hbuild]
    exact alGet_seedActive s _ hnd hact
  have hkv2 : kv.2 = seededEntry kv.1 := by
    rw [hkey] at huntouched
    rw [hget] at huntouched
    exact Option.some.inj huntouched
  rw [hrEq, hkv2]
  exact ⟨rfl, rfl, rfl⟩

/-- A purchase funded by active user 1, inactive user 3, and id 7 which is
no user at all. -/
def pW10 : Purchase :=
  { quantity := 1, unit_cost := 1, signal_amount := 0, signal_paid_by := none,
    contributions := [⟨some 1, .ABSOLUTE, 10⟩, ⟨some 3, .ABSOLUTE, 5⟩, ⟨some 7, .ABSOLUTE, 5⟩],
    additional_costs := [], sales := [] }

/-- Snapshot for the C10 witness: active users 1 and 2 (2 idle), inactive
user 3. -/
def exW10 : Snapshot :=
  { users := [⟨1, true⟩, ⟨2, true⟩, ⟨3, false⟩], purchases := [pW10] }

/-- Claim C10 witness: the ledger has exactly the rows of active users 1 and
2 (none for inactive 3 or unknown 7 despite their contributions), and the
idle active user's row is all zero. -/
theorem C10_ledger_rows_are_exactly_active_users_witness :
    (dashboard_ledger exW10).map (·.user) = [1, 2] ∧
      ∀ r ∈ dashboard_ledger exW10, noActivity exW10 r.user →
        r.invested = 0 ∧ r.received_actual = 0 ∧ r.received_attributed = 0 := by
  have h := C10_ledger_rows_are_exactly_active_users exW10 (by decide)
  refine ⟨?_, h.2⟩
  rw [h.1]
  decide

/-! ### Claim C4 -/

theorem updEntry_invested (t r v : Dec) (e : LedgerEntry) :
    (updEntry t r v e).invested = decAdd e.invested v := by
  rw [updEntry]
  by_cases hc : 0 < t ∧ r ≠ 0
  · simp [hc]
  · simp [hc]

/-- The effect of one purchase on any single ledger entry, in one equation. -/
theorem alGet_processPurchase (m : LedgerMap) (p : Purchase) (u : ℕ) :
    alGet u (processPurchase m p) =
      match alGet u (buildInvestments p) with
      | some v => some (updEntry (purchase_total_invested p) p.total_revenue v
          ((alGet u m).getD defaultEntry))
      | none => alGet u m := by
  rw [processPurchase, finishPurchase]
  by_cases hinv : buildInvestments p = []
  · rw [if_pos hinv, hinv]
    simp [alGet]
  · rw [if_neg hinv, alGet_foldl_applyInvestment _ _ _ _ _ (buildInvestments_keys_nodup p)]
    rfl

theorem investedAt_foldl_actual (pt : List (ℕ × Dec)) (m : LedgerMap) (u : ℕ) :
    investedAt (pt.foldl
      (fun m kv => alModify kv.1 (fun e => { e with actual := kv.2 }) m) m) u
      = investedAt m u := by
  induction pt generalizing m with
  | nil => rfl
  | cons kv t ih =>
    rw [List.foldl_cons, ih]
    rw [investedAt, investedAt, entryAt, entryAt, alGet_alModify]
    by_cases hk : kv.1 = u
    · rw [if_pos hk]
      cases alGet u m <;> rfl
    · rw [if_neg hk]

theorem investedAt_applyPayments (s : Snapshot) (m : LedgerMap) (u : ℕ) :
    investedAt (applyPayments s m) u = investedAt m u := by
  rw [applyPayments]
  exact investedAt_foldl_actual _ _ _

/-- Entries all carry their own key in `user`: the no-append variant of the
key/user invariant. -/
def allSeeded (m : LedgerMap) : Prop := ∀ kv ∈ m, kv.2.user = some kv.1

theorem emitLedger_eq_map (m : LedgerMap) (hQ : allSeeded m) :
    emitLedger m = m.map (fun kv => mkRow kv.1 kv.2) := by
  induction m with
  | nil => rfl
  | cons kv t ih =>
    have hhead := hQ kv (by simp)
    rw [emitLedger] at ih ⊢
    rw [List.filterMap_cons, hhead, List.map_cons]
    rw [ih (fun w hw => hQ w (List.mem_cons_of_mem _ hw))]

theorem allSeeded_alUpd_mem (k : ℕ) (f : LedgerEntry → LedgerEntry) (m : LedgerMap)
    (hpres : ∀ e, (f e).user = e.user) (hmem : k ∈ alKeys m) (hQ : allSeeded m) :
    allSeeded (alUpd defaultEntry k f m) := by
  induction m with
  | nil => simp [alKeys] at hmem
  | cons kv0 t ih =>
    intro kv hkv
    by_cases hk : kv0.1 = k
    · have hstep : alUpd defaultEntry k f (kv0 :: t) = (kv0.1, f kv0.2) :: t := by
        simp [alUpd, hk]
      rw [hstep] at hkv
      rcases List.mem_cons.mp hkv with hkv | hkv
      · rw [hkv]
        show (f kv0.2).user = some kv0.1
        rw [hpres]
        exact hQ kv0 (by simp)
      · exact hQ kv (List.mem_cons_of_mem _ hkv)
    · have hstep : alUpd defaultEntry k f (kv0 :: t) = kv0 :: alUpd defaultEntry k f t := by
        simp [alUpd, hk]
      rw [hstep] at hkv
      have hmem2 : k ∈ alKeys t := by
        have : alKeys (kv0 :: t) = kv0.1 :: alKeys t := by simp [alKeys]
        rw [this] at hmem
        rcases List.mem_cons.mp hmem with hc | hc
        · exact absurd hc.symm hk
        · exact hc
      rcases List.mem_cons.mp hkv with hkv | hkv
      · rw [hkv]
        exact hQ kv0 (by simp)
      · exact ih hmem2 (fun w hw => hQ w (List.mem_cons_of_mem _ hw)) kv hkv

theorem alKeys_alUpd_mem {α : Type} (d : α) (k : ℕ) (f : α → α) (m : List (ℕ × α))
    (hmem : k ∈ alKeys m) : alKeys (alUpd d k f m) = alKeys m := by
  rw [alKeys_alUpd, if_pos hmem]

theorem alKeys_foldl_applyInvestment_mem (t r : Dec) (inv : List (ℕ × Dec)) (m : LedgerMap)
    (h : ∀ kv ∈ inv, kv.1 ∈ alKeys m) :
    alKeys (inv.foldl (applyInvestment t r) m) = alKeys m := by
  induction inv generalizing m with
  | nil => rfl
  | cons kv tl ih =>
    rw [List.foldl_cons]
    have hk := h kv (by simp)
    have hstep : alKeys (applyInvestment t r m kv) = alKeys m :=
      alKeys_alUpd_mem _ _ _ _ hk
    rw [ih _ (by intro w hw; rw [hstep]; exact h w (List.mem_cons_of_mem _ hw)), hstep]

theorem allSeeded_foldl_applyInvestment (t r : Dec) (inv : List (ℕ × Dec)) (m : LedgerMap)
    (h : ∀ kv ∈ inv, kv.1 ∈ alKeys m) (hQ : allSeeded m) :
    allSeeded (inv.foldl (applyInvestment t r) m) := by
  induction inv generalizing m with
  | nil => exact hQ
  | cons kv tl ih =>
    rw [List.foldl_cons]
    have hk := h kv (by simp)
    have hstep : alKeys (applyInvestment t r m kv) = alKeys m :=
      alKeys_alUpd_mem _ _ _ _ hk
    apply ih
    · intro w hw
      rw [hstep]
      exact h w (List.mem_cons_of_mem _ hw)
    · exact allSeeded_alUpd_mem _ _ _ (updEntry_user t r kv.2) hk hQ

theorem allSeeded_alModify (k : ℕ) (f : LedgerEntry → LedgerEntry) (m : LedgerMap)
    (hpres : ∀ e, (f e).user = e.user) (hQ : allSeeded m) : allSeeded (alModify k f m) := by
  induction m with
  | nil =>
    intro kv hkv
    cases hkv
  | cons kv0 t ih =>
    intro kv hkv
    by_cases hk : kv0.1 = k
    · have hstep : alModify k f (kv0 :: t) = (kv0.1, f kv0.2) :: t := by
        simp [alModify, hk]
      rw [hstep] at hkv
      rcases List.mem_cons.mp hkv with hkv | hkv
      · rw [hkv]
        show (f kv0.2).user = some kv0.1
        rw [hpres]
        exact hQ kv0 (by simp)
      · exact hQ kv (List.mem_cons_of_mem _ hkv)
    · have hstep : alModify k f (kv0 :: t) = kv0 :: alModify k f t := by
        simp [alModify, hk]
      rw [hstep] at hkv
      rcases List.mem_cons.mp hkv with hkv | hkv
      · rw [hkv]
        exact hQ kv0 (by simp)
      · exact ih (fun w hw => hQ w (List.mem_cons_of_mem _ hw)) kv hkv

theorem allSeeded_applyPayments (s : Snapshot) (m : LedgerMap) (hQ : allSeeded m) :
    allSeeded (applyPayments s m) := by
  rw [applyPayments]
  induction paymentTotals s generalizing m with
  | nil => exact hQ
  | cons kv tl ih =>
    rw [List.foldl_cons]
    exact ih _ (allSeeded_alModify _ _ _ (fun e => rfl) hQ)

theorem allSeeded_seedActive (s : Snapshot) (hnd : (s.users.map (·.id)).Nodup) :
    allSeeded (seedActive s) := by
  rw [seedActive_eq s hnd]
  intro kv hkv
  rcases List.mem_map.mp hkv with ⟨u, hu, hkveq⟩
  rw [← hkveq]
  rfl

/-- The values of an association list with distinct keys, read back through
its own lookups. -/
theorem map_entries_eq_map_keys (m : LedgerMap) (g : LedgerEntry → Dec)
    (hnd : (alKeys m).Nodup) :
    m.map (fun kv => g kv.2) = (alKeys m).map (fun k => g ((alGet k m).getD defaultEntry)) := by
  induction m with
  | nil => rfl
  | cons kv t ih =>
    have hcons : alKeys (kv :: t) = kv.1 :: alKeys t := by simp [alKeys]
    rw [hcons, List.nodup_cons] at hnd
    rw [List.map_cons, hcons, List.map_cons]
    have hhead : alGet kv.1 (kv :: t) = some kv.2 := by simp [alGet]
    rw [hhead]
    have htail : (alKeys t).map (fun k => g ((alGet k (kv :: t)).getD defaultEntry))
        = (alKeys t).map (fun k => g ((alGet k t).getD defaultEntry)) := by
      apply List.map_congr_left
      intro k hk
      have hne : kv.1 ≠ k := by
        intro he
        rw [he] at hnd
        exact hnd.1 hk
      simp [alGet, hne]
    rw [htail, ih hnd.2]
    rfl

theorem sum_getD_over_superset (l : List ℕ) (m : List (ℕ × Dec))
    (hl : l.Nodup) (hm : (alKeys m).Nodup) (hsub : ∀ k ∈ alKeys m, k ∈ l) :
    (l.map (fun u => (alGet u m).getD 0)).sum = (m.map (·.2)).sum := by
  induction m generalizing l with
  | nil =>
    have hz : ∀ x ∈ l.map (fun u => ((alGet u ([] : List (ℕ × Dec))).getD 0)), x = 0 := by
      intro x hx
      rcases List.mem_map.mp hx with ⟨u, hu, hxe⟩
      rw [← hxe]
      rfl
    rw [List.sum_eq_zero hz]
    rfl
  | cons kv t ih =>
    have hcons : alKeys (kv :: t) = kv.1 :: alKeys t := by simp [alKeys]
    rw [hcons, List.nodup_cons] at hm
    have hk_mem : kv.1 ∈ l := hsub kv.1 (by simp [alKeys])
    have hperm : l.Perm (kv.1 :: l.erase kv.1) := List.perm_cons_erase hk_mem
    have hsum_perm : (l.map (fun u => (alGet u (kv :: t)).getD 0)).sum
        = ((kv.1 :: l.erase kv.1).map (fun u => (alGet u (kv :: t)).getD 0)).sum :=
      (hperm.map _).sum_eq
    rw [hsum_perm, List.map_cons, List.sum_cons]
    have hhead : alGet kv.1 (kv :: t) = some kv.2 := by simp [alGet]
    rw [hhead]
    have htail : (l.erase kv.1).map (fun u => (alGet u (kv :: t)).getD 0)
        = (l.erase kv.1).map (fun u => (alGet u t).getD 0) := by
      apply List.map_congr_left
      intro u hu
      have hne : u ≠ kv.1 := by
        intro he
        rw [he] at hu
        exact hl.not_mem_erase hu
      simp [alGet, Ne.symm hne]
    rw [htail]
    have hsub2 : ∀ k ∈ alKeys t, k ∈ l.erase kv.1 := by
      intro k hk
      have hkl : k ∈ l := hsub k (by rw [hcons]; exact List.mem_cons_of_mem _ hk)
      have hkne : k ≠ kv.1 := by
        intro he
        rw [he] at hk
        exact hm.1 hk
      exact (List.mem_erase_of_ne hkne).mpr hkl
    rw [ih (l.erase kv.1) (hl.erase _) hm.2 hsub2]
    simp

theorem mem_of_alGet {α : Type} (k : ℕ) (v : α) (m : List (ℕ × α))
    (h : alGet k m = some v) : (k, v) ∈ m := by
  induction m with
  | nil => cases h
  | cons kv t ih =>
    by_cases hk : kv.1 = k
    · have hv : kv.2 = v := by
        simp [alGet, hk] at h
        exact h
      have : kv = (k, v) := by
        rw [← hk, ← hv]
      rw [← this]
      simp
    · simp only [alGet, hk, if_false] at h
      exact List.mem_cons_of_mem _ (ih h)

/-- A purchase funded entirely by id 5, which is no active user. -/
def pC4 : Purchase :=
  { quantity := 1, unit_cost := 1, signal_amount := 0, signal_paid_by := none,
    contributions := [⟨some 5, .ABSOLUTE, 100⟩], additional_costs := [], sales := [] }

/-- Snapshot for the C4 counterexample: the only user is 1, so payer 5 gets
no ledger row. -/
def exC4 : Snapshot := { users := [⟨1, true⟩], purchases := [pC4] }

/-- Claim C4 counterexample: on a single-purchase snapshot whose payer is
outside the active-user set, the payer's 100 is in the investment map (and
hence in `purchase_total_invested`), yet summing `invested` over the emitted
ledger rows gives 0, not 100 — the claim's "including when some of the
purchase's payers are not in the active-user set" is false. -/
theorem C4_invested_partition_counterexample :
    alGet 5 (buildInvestments pC4) = some 100 ∧
      ((dashboard_ledger exC4).map (·.invested)).sum ≠ purchase_total_invested pC4 := by
  constructor
  · decide
  · rw [← qSum_eq]
    decide

/-- Claim C4 as amended: for a single-purchase snapshot, summing `invested`
over the emitted ledger rows equals the purchase's `purchase_total_invested`
provided every payer of the purchase is an active user (a payer outside the
active-user set still counts in `purchase_total_invested` but appears in no
emitted row) and the decimal additions involved are exact (each map value is
a 28-digit fixed point and the rounded total equals the exact sum). -/
theorem C4_invested_partition_amended (s : Snapshot) (p : Purchase)
    (hps : s.purchases = [p])
    (hnd : (s.users.map (·.id)).Nodup)
    (hactive : ∀ k ∈ alKeys (buildInvestments p), k ∈ activeIds s)
    (hvals : ∀ kv ∈ buildInvestments p, decAdd 0 kv.2 = kv.2)
    (hsum : purchase_total_invested p = ((buildInvestments p).map (·.2)).sum) :
    ((dashboard_ledger s).map (·.invested)).sum = purchase_total_invested p := by
  have hkeys0 : alKeys (seedActive s) = activeIds s := alKeys_seedActive s hnd
  have hmem : ∀ kv ∈ buildInvestments p, kv.1 ∈ alKeys (seedActive s) := by
    intro kv hkv
    rw [hkeys0]
    exact hactive kv.1 (List.mem_map_of_mem _ hkv)
  have hpipe : dashboard_ledger s
      = emitLedger (applyPayments s (processPurchase (seedActive s) p)) := by
    rw [dashboard_ledger, hps]
    rfl
  have hkeys1 : alKeys (processPurchase (seedActive s) p) = activeIds s := by
    rw [processPurchase, finishPurchase]
    by_cases hinv : buildInvestments p = []
    · rw [if_pos hinv, hkeys0]
    · rw [if_neg hinv, alKeys_foldl_applyInvestment_mem _ _ _ _ hmem, hkeys0]
  have hkeys2 : alKeys (applyPayments s (processPurchase (seedActive s) p)) = activeIds s := by
    rw [alKeys_applyPayments, hkeys1]
  have hQ : allSeeded (applyPayments s (processPurchase (seedActive s) p)) := by
    apply allSeeded_applyPayments
    rw [processPurchase, finishPurchase]
    by_cases hinv : buildInvestments p = []
    · rw [if_pos hinv]
      exact allSeeded_seedActive s hnd
    · rw [if_neg hinv]
      exact allSeeded_foldl_applyInvestment _ _ _ _ hmem (allSeeded_seedActive s hnd)
  have hndk : (alKeys (applyPayments s (processPurchase (seedActive s) p))).Nodup := by
    rw [hkeys2]
    exact activeIds_nodup s hnd
  rw [hpipe, emitLedger_eq_map _ hQ, List.map_map]
  have hcomp : ((fun r : LedgerRow => r.invested) ∘ (fun kv : ℕ × LedgerEntry => mkRow kv.1 kv.2))
      = fun kv : ℕ × LedgerEntry => kv.2.invested := rfl
  rw [hcomp, map_entries_eq_map_keys _ _ hndk, hkeys2]
  have hpointwise : (activeIds s).map
      (fun k => ((alGet k (applyPayments s (processPurchase (seedActive s) p))).getD
        defaultEntry).invested)
      = (activeIds s).map (fun k => (alGet k (buildInvestments p)).getD 0) := by
    apply List.map_congr_left
    intro k hk
    have hseed : alGet k (seedActive s) = some (seededEntry k) := alGet_seedActive s k hnd hk
    have hpay := investedAt_applyPayments s (processPurchase (seedActive s) p) k
    simp only [investedAt, entryAt] at hpay
    rw [hpay]
    rw [alGet_processPurchase]
    cases hv : alGet k (buildInvestments p) with
    | none =>
      rw [hseed]
      rfl
    | some v =>
      have hadd := hvals (k, v) (mem_of_alGet _ _ _ hv)
      simp only [Option.getD_some]
      rw [updEntry_invested, hseed]
      simp only [Option.getD_some]
      show decAdd (seededEntry k).invested v = v
      have hz : (seededEntry k).invested = 0 := rfl
      rw [hz]
      exact hadd
  rw [hpointwise,
    sum_getD_over_superset (activeIds s) (buildInvestments p) (activeIds_nodup s hnd)
      (buildInvestments_keys_nodup p) hactive]
  exact hsum.symm

/-- The 60/40 purchase with revenue 100, both payers active, for the C4
witness. -/
def pW4 : Purchase :=
  { quantity := 1, unit_cost := 1, signal_amount := 0, signal_paid_by := none,
    contributions := [⟨some 1, .ABSOLUTE, 60⟩, ⟨some 2, .ABSOLUTE, 40⟩],
    additional_costs := [], sales := [⟨1, 100, .CONFIRMED, []⟩] }

/-- Snapshot for the C4 witness. -/
def exW4 : Snapshot := { users := [⟨1, true⟩, ⟨2, true⟩], purchases := [pW4] }

/-- Claim C4 amended witness: with both payers active the emitted `invested`
values sum exactly to `purchase_total_invested` (100). -/
theorem C4_invested_partition_amended_witness :
    ((dashboard_ledger exW4).map (·.invested)).sum = purchase_total_invested pW4 := by
  apply C4_invested_partition_amended exW4 pW4 rfl (by decide) (by decide) (by decide)
  rw [← qSum_eq]
  decide

/-! Sanity checks of the decimal model. -/

example : ctxRound (60 : ℚ) = 60 := by decide
example : ctxRound (mkRat 1 3) = mkRat 3333333333333333333333333333 (10 ^ 28) := by decide
example : decMul (decDiv 60 100) 100 = 60 := by decide
example : decAdd (decAdd 0 60) 40 = 100 := by decide
example : decMul (decDiv 1 3) 1 = mkRat 3333333333333333333333333333 (10 ^ 28) := by decide
example : decDiv 10000000000000000000000000005 10 = 1000000000000000000000000000 := by decide
example : decDiv 10000000000000000000000000015 10 = 1000000000000000000000000002 := by decide
example : ctxRound (-(mkRat 1 3)) = -(mkRat 3333333333333333333333333333 (10 ^ 28)) := by
  decide
example : qSum ((dashboard_ledger ex5).map (·.received_attributed))
    = mkRat (10 ^ 28 - 1) (10 ^ 28) := by decide

/-- A purchase exercising every branch at once: percentage and absolute
contributions, a null-payer contribution, additional costs with and without
payer, a signal payer, two sales with payments to active and inactive
receivers. -/
def pT1 : Purchase :=
  { quantity := 3, unit_cost := mkRat 5 2, signal_amount := 2, signal_paid_by := some 2,
    contributions := [⟨some 1, .ABSOLUTE, 10⟩, ⟨some 2, .PERCENTAGE, mkRat 3333 100⟩,
      ⟨some 3, .ABSOLUTE, 5⟩, ⟨none, .ABSOLUTE, 99⟩],
    additional_costs := [⟨4, some 1⟩, ⟨6, none⟩],
    sales := [⟨2, 10, .DRAFT, [⟨1, 7⟩, ⟨3, 5⟩]⟩, ⟨1, mkRat 7 2, .SETTLED, [⟨2, 2⟩]⟩] }

/-- A second purchase splitting revenue 1 three-to-one-ish. -/
def pT2 : Purchase :=
  { quantity := 1, unit_cost := 1, signal_amount := 0, signal_paid_by := none,
    contributions := [⟨some 4, .ABSOLUTE, 1⟩, ⟨some 1, .ABSOLUTE, 2⟩],
    additional_costs := [], sales := [⟨1, 1, .CONFIRMED, []⟩] }

/-- End-to-end regression snapshot. -/
def exT : Snapshot :=
  { users := [⟨1, true⟩, ⟨2, true⟩, ⟨3, false⟩, ⟨4, true⟩], purchases := [pT1, pT2] }

/- The expected rows below were computed independently by running the
views.py algorithm (with `signal_amount_eur` read as `signal_amount`) under
CPython's decimal module at its default context; every digit, including the
28-significant-digit roundings in `received_attributed` and the balances,
matches the embedding. -/
example : dashboard_ledger exT =
    [⟨1, 16, 7, mkRat 733340780221066181555122927 50000000000000000000000000, -9,
        mkRat (-66659219778933818444877073) 50000000000000000000000000⟩,
      ⟨2, mkRat 17999 4000, 2, mkRat 4499797870190108405408568177 1000000000000000000000000000,
        mkRat (-9999) 4000, mkRat 47870190108405408568177 1000000000000000000000000000⟩,
      ⟨4, 1, 0, mkRat 3333333333333333333333333333 10000000000000000000000000000, -1,
        mkRat (-6666666666666666666666666667) 10000000000000000000000000000⟩] := by
  decide

end SideSales
